import Mathlib

/-!
Shallow embedding of the storage core of the replicated key-value store
(`storage/models.py`, `storage/replication.py`, `storage/services.py`,
`storage/serializers.py`, `storage/views.py`), together with proofs about
its behaviour.

Modelling choices, stated once:
* Versions and counts are `Nat` (the Python integers never overflow here).
* The persistent table is the list of its `KeyValueEntry` rows; the `key`
  column carries a uniqueness constraint (`unique=True` in
  `storage/models.py`), which appears as a `Nodup` hypothesis on the key
  column where a proof needs it.  The `created_at` / `updated_at`
  timestamp columns are not modelled.
* The database's lexicographic string order is modelled explicitly
  (`lexLt` on the character lists) rather than through `String.lt`.
* Peer HTTP traffic is modelled by giving each configured peer the list of
  outcomes the coordinator would observe on its successive request
  attempts: `none` is a network exception
  (`requests.RequestException`), `some c` a response with HTTP status
  code `c`.  Which URL and verb the request uses only selects the peer's
  behaviour, which is already the `attempts` input.
* `transaction.atomic()` blocks are modelled by returning the table as it
  was at entry whenever the block raises.
* The side cache is a map from keys to cached entries; TTL expiry is not
  modelled (an entry stays until invalidated), which is the worst case
  for the staleness properties proved below.
-/

namespace KV

/-- `RETRY_ATTEMPTS` (`storage/replication.py`). -/
def RETRY_ATTEMPTS : Nat := 3

/-- `MAX_RANGE_SIZE` (`storage/services.py`). -/
def MAX_RANGE_SIZE : Nat := 10000

/-- `MAX_BATCH_SIZE` (`storage/services.py`). -/
def MAX_BATCH_SIZE : Nat := 10000

/-- `BATCH_CHUNK_SIZE` (`storage/services.py`). -/
def BATCH_CHUNK_SIZE : Nat := 1000

/-- A row of the `KeyValueEntry` table (`storage/models.py`). -/
structure KeyValueEntry where
  key : String
  value : String
  version : Nat
deriving DecidableEq, Repr

/-- A configured replica node (one `REPLICA_NODES` entry) together with the
outcomes of the successive HTTP attempts the coordinator would observe
against it. -/
structure Peer where
  url : String
  attempts : List (Option Nat)
deriving DecidableEq, Repr

/-- Outcome of attempt number `i` against a peer; attempts beyond the
supplied list are network failures. -/
def attemptOutcome (p : Peer) (i : Nat) : Option Nat := p.attempts.getD i none

inductive ROp where
  | put
  | delete
deriving DecidableEq, Repr

/-- `response.status_code in [200, 201, 204, 404]`: the acceptance test of
`replicate_with_failover` (`storage/replication.py`, line 263), shared by
the put path and the delete path. -/
def statusOk (code : Nat) : Bool := [200, 201, 204, 404].contains code

/-- The retry loop of `replicate_with_failover` for one peer: up to
`RETRY_ATTEMPTS` attempts, success as soon as one response passes
`statusOk`.  The operation only selects the request that is sent; the
acceptance test is the same for `put` and for `delete`. -/
def tryPeer (op : ROp) (p : Peer) : Bool :=
  (List.range RETRY_ATTEMPTS).any (fun i =>
    match attemptOutcome p i with
    | some code => statusOk code
    | none => false)

/-- The per-peer retry loop of `replicate_batch_put`: only a 200 response
counts (`storage/replication.py`, line 115). -/
def tryPeerBatch (p : Peer) : Bool :=
  (List.range RETRY_ATTEMPTS).any (fun i =>
    match attemptOutcome p i with
    | some code => code == 200
    | none => false)

/-- The peer fan-out loop: every peer is attempted in sequence; successful
peer URLs and failed peer URLs are collected in order.  (The failed list
only feeds the health cache, which is not modelled further.) -/
def fanOutLoop (ok : Peer → Bool) (accS accF : List String) :
    List Peer → List String × List String
  | [] => (accS, accF)
  | p :: rest =>
    if ok p then fanOutLoop ok (accS ++ [p.url]) accF rest
    else fanOutLoop ok accS (accF ++ [p.url]) rest

/-- `get_required_replicas` (`storage/replication.py`): majority of the
cluster, the local node included. -/
def get_required_replicas (numPeers : Nat) : Nat :=
  let total_nodes := numPeers + 1
  total_nodes / 2 + 1

/-- `replicate_with_failover` (`storage/replication.py`): a no-op reporting
success when replication is off or no peer is configured; otherwise fan
out to every peer and decide quorum as
`1 (local) + successful peers ≥ required`. -/
def replicate_with_failover (op : ROp) (peers : List Peer) (replicate : Bool) :
    Bool × List String :=
  if !replicate || peers.isEmpty then (true, [])
  else
    let successful_nodes := (fanOutLoop (tryPeer op) [] [] peers).1
    let required_replicas := get_required_replicas peers.length
    (decide (required_replicas ≤ successful_nodes.length + 1), successful_nodes)

/-- `replicate_put` (`storage/replication.py`). -/
def replicate_put (peers : List Peer) (replicate : Bool) : Bool × List String :=
  replicate_with_failover .put peers replicate

/-- `replicate_delete` (`storage/replication.py`). -/
def replicate_delete (peers : List Peer) (replicate : Bool) : Bool × List String :=
  replicate_with_failover .delete peers replicate

/-- `replicate_batch_put` (`storage/replication.py`): same fan-out and
quorum arithmetic, acceptance restricted to a 200 response. -/
def replicate_batch_put (peers : List Peer) (replicate : Bool) : Bool × List String :=
  if !replicate || peers.isEmpty then (true, [])
  else
    let successful_nodes := (fanOutLoop tryPeerBatch [] [] peers).1
    let required_replicas := get_required_replicas peers.length
    (decide (required_replicas ≤ successful_nodes.length + 1), successful_nodes)

/-! ## The local versioned store -/

/-- The database's lexicographic order on character lists. -/
def lexLt : List Char → List Char → Bool
  | [], [] => false
  | [], _ :: _ => true
  | _ :: _, [] => false
  | a :: as, b :: bs => if a < b then true else if b < a then false else lexLt as bs

/-- Strict lexicographic order on keys (`key__gt` in the queryset). -/
def keyLt (a b : String) : Bool := lexLt a.data b.data

/-- Reflexive lexicographic order on keys (`key__gte` / `key__lte`). -/
def keyLe (a b : String) : Bool := !keyLt b a

abbrev Table := List KeyValueEntry

/-- Point lookup: the row whose unique `key` equals `k`. -/
def tableGet (t : Table) (k : String) : Option KeyValueEntry :=
  t.find? (fun e => e.key == k)

/-- The side cache keyed by entry key (`django.core.cache`, `kv:` keys). -/
def Cache := String → Option KeyValueEntry

/-- `cache.delete` for one key. -/
def cacheDelete (c : Cache) (k : String) : Cache :=
  fun k' => if k' == k then none else c k'

/-- `cache.set` for one key. -/
def cacheSet (c : Cache) (k : String) (e : KeyValueEntry) : Cache :=
  fun k' => if k' == k then some e else c k'

/-- The state of one node: its table and its cache. -/
structure NodeState where
  table : Table
  cache : Cache

def emptyState : NodeState := ⟨[], fun _ => none⟩

/-- The version the row of key `k` gets after one more local write:
`version + 1` on an existing row, `1` on a fresh one. -/
def newVersion : Option KeyValueEntry → Nat
  | some e => e.version + 1
  | none => 1

/-- The local mutation inside `put_value` (`storage/services.py`):
`filter(key=key).update(value=value, version=F("version") + 1)`, and when
no row matched, `create(key=key, value=value, version=1)`.  Returns the
new table, the refreshed entry (`objects.get(key=key)` after an update;
its `getD` default is unreachable because a row was just updated) and the
`created` flag. -/
def localPut (t : Table) (k v : String) : Table × KeyValueEntry × Bool :=
  let updated := (t.filter (fun e => e.key == k)).length
  if updated != 0 then
    let t' := t.map (fun e => if e.key == k then ⟨e.key, v, e.version + 1⟩ else e)
    (t', (tableGet t' k).getD ⟨k, v, 0⟩, false)
  else
    (t ++ [⟨k, v, 1⟩], ⟨k, v, 1⟩, true)

/-- `put_value` (`storage/services.py`): the local mutation and the
replication call both run inside `transaction.atomic()`, so the exception
raised on quorum failure rolls the table back to its state at entry, and
the cache (whose invalidation comes after the quorum check) is left as it
was. -/
def put_value (s : NodeState) (k v : String) (peers : List Peer)
    (replicate : Bool) : NodeState × Except String (KeyValueEntry × Bool) :=
  let r := localPut s.table k v
  let rep := replicate_put peers replicate
  if rep.1 then
    ({ table := r.1, cache := cacheDelete s.cache k }, .ok (r.2.1, r.2.2))
  else
    ({ table := s.table, cache := s.cache },
     .error ("Failed to replicate to quorum of nodes. Successful: "
       ++ toString (rep.2.length + 1) ++ " nodes"))

/-- `read_value` (`storage/services.py`): cache-aside read — serve a cached
entry when present, otherwise fetch the row (`none` models the
`DoesNotExist` exception) and warm the cache. -/
def read_value (s : NodeState) (k : String) : NodeState × Option KeyValueEntry :=
  match s.cache k with
  | some e => (s, some e)
  | none =>
    match tableGet s.table k with
    | some e => ({ s with cache := cacheSet s.cache k e }, some e)
    | none => (s, none)

/-- `delete_value` (`storage/services.py`): `filter(key=key).delete()` runs
with no enclosing transaction; when a row was deleted the delete is
replicated, and the quorum-failure exception leaves the local delete in
place (only the cache invalidation is skipped). -/
def delete_value (s : NodeState) (k : String) (peers : List Peer)
    (replicate : Bool) : NodeState × Except String Bool :=
  let deleted := (s.table.filter (fun e => e.key == k)).length
  let t1 := s.table.filter (fun e => !(e.key == k))
  if deleted == 0 then ({ s with table := t1 }, .ok false)
  else
    let rep := replicate_delete peers replicate
    if rep.1 then
      ({ table := t1, cache := cacheDelete s.cache k }, .ok true)
    else
      ({ table := t1, cache := s.cache },
       .error ("Failed to replicate delete to quorum of nodes. Successful: "
         ++ toString (rep.2.length + 1) ++ " nodes"))

/-- Insertion step of the `ORDER BY key` sort. -/
def insertByKey (e : KeyValueEntry) : List KeyValueEntry → List KeyValueEntry
  | [] => [e]
  | f :: rest => if keyLe e.key f.key then e :: f :: rest else f :: insertByKey e rest

/-- The `ORDER BY key` sort of a queryset. -/
def sortByKey : List KeyValueEntry → List KeyValueEntry
  | [] => []
  | e :: rest => insertByKey e (sortByKey rest)

/-- `read_range` (`storage/services.py`): keys in the inclusive range,
ordered by key; with a (Python-truthy) cursor only keys strictly greater
than it; `limit + 1` rows are fetched, and when an extra row shows up the
page is the first `limit` rows, `has_more` is true and `next_cursor` is
the key of that extra row. -/
def read_range (t : Table) (start_key end_key : String) (limit : Option Nat)
    (cursor : Option String) : List KeyValueEntry × Option String × Bool :=
  let lim := match limit with
    | none => MAX_RANGE_SIZE
    | some l => min l MAX_RANGE_SIZE
  let ranged := t.filter (fun e => keyLe start_key e.key && keyLe e.key end_key)
  let ordered := sortByKey ranged
  let afterCursor := match cursor with
    | none => ordered
    | some c => if c == "" then ordered else ordered.filter (fun e => keyLt c e.key)
  let fetched := afterCursor.take (lim + 1)
  if fetched.length ≤ lim then (fetched, none, false)
  else (fetched.take lim, ((fetched.drop lim).head?).map (·.key), true)

/-! ## Batch upsert -/

/-- The chunk start offsets `range(0, n, BATCH_CHUNK_SIZE)`. -/
def chunkStarts (n : Nat) : List Nat :=
  (List.range ((n + BATCH_CHUNK_SIZE - 1) / BATCH_CHUNK_SIZE)).map (· * BATCH_CHUNK_SIZE)

/-- The `items_list[chunk_start : chunk_start + BATCH_CHUNK_SIZE]` slices. -/
def chunksOf (items : List (String × String)) : List (List (String × String)) :=
  (chunkStarts items.length).map (fun cs => (items.drop cs).take BATCH_CHUNK_SIZE)

/-- The `existing_entries` dict of one chunk: the rows whose key occurs
among the chunk's keys (`filter(key__in=keys)`), indexed by their unique
key. -/
def existing0 (t : Table) (chunk : List (String × String)) : List KeyValueEntry :=
  t.filter (fun e => chunk.any (fun it => it.1 == e.key))

/-- Dict lookup by key. -/
def dictGet (d : List KeyValueEntry) (k : String) : Option KeyValueEntry :=
  d.find? (fun e => e.key == k)

/-- In-place mutation of the dict entry of key `k`. -/
def dictSet (d : List KeyValueEntry) (k : String) (e' : KeyValueEntry) :
    List KeyValueEntry :=
  d.map (fun e => if e.key == k then e' else e)

structure ChunkState where
  existing : List KeyValueEntry
  to_create : List KeyValueEntry
  to_update : List String
deriving Repr

/-- The item loop of one `batch_put` chunk (`storage/services.py`): an
item whose key is in the dict mutates the fetched entry in place (new
value, `version += 1`) and appends that object to `to_update` (recorded
here by its key); any other item contributes a fresh `version = 1` entry
to `to_create`. -/
def chunkLoop (existing to_create : List KeyValueEntry) (to_update : List String) :
    List (String × String) → ChunkState
  | [] => ⟨existing, to_create, to_update⟩
  | it :: rest =>
    match dictGet existing it.1 with
    | some e =>
      chunkLoop (dictSet existing it.1 ⟨e.key, it.2, e.version + 1⟩) to_create
        (to_update ++ [it.1]) rest
    | none => chunkLoop existing (to_create ++ [⟨it.1, it.2, 1⟩]) to_update rest

/-- Committing one chunk: `bulk_create(to_create)` appends the new rows;
`bulk_update(to_update, ...)` writes the mutated objects' field values —
their final dict state — back to their rows. -/
def applyChunk (t : Table) (st : ChunkState) : Table :=
  t.map (fun e =>
    if st.to_update.contains e.key then
      match dictGet st.existing e.key with
      | some e' => e'
      | none => e
    else e)
  ++ st.to_create

/-- The chunk loop of `batch_put`: each chunk commits on its own; a chunk's
results are its created entries followed by its updated entries
(`chunk_results.extend(to_create)` and then `extend(to_update)`, the
latter materialised from the objects' final state). -/
def runChunks (t : Table) : List (List (String × String)) → Table × List KeyValueEntry
  | [] => (t, [])
  | c :: rest =>
    let st := chunkLoop (existing0 t c) [] [] c
    let chunk_results := st.to_create
      ++ st.to_update.filterMap (fun k => dictGet st.existing k)
    let r := runChunks (applyChunk t st) rest
    (r.1, chunk_results ++ r.2)

inductive SvcErr where
  | valueError (msg : String)
  | quorum (successfulTotal : Nat)
deriving DecidableEq, Repr

/-- `batch_put` (`storage/services.py`).  An empty batch is a no-op; an
oversized batch raises `ValueError` before touching the table; otherwise
the chunks commit one by one, the single batch-replication call runs
after all of them, and a quorum failure leaves every committed chunk in
place (there is no enclosing transaction) with the cache not yet
invalidated.  On success the cache keys of all items are dropped and the
results are re-read from the final table in `all_results` order. -/
def batch_put (s : NodeState) (items : List (String × String)) (peers : List Peer)
    (replicate : Bool) : NodeState × Except SvcErr (List KeyValueEntry) :=
  if items.isEmpty then (s, .ok [])
  else if MAX_BATCH_SIZE < items.length then
    (s, .error (.valueError ("Batch size " ++ toString items.length
      ++ " exceeds maximum of " ++ toString MAX_BATCH_SIZE ++ " items")))
  else
    let r := runChunks s.table (chunksOf items)
    let rep := replicate_batch_put peers replicate
    if rep.1 then
      ({ table := r.1,
         cache := fun k => if items.any (fun it => it.1 == k) then none else s.cache k },
       .ok (r.2.filterMap (fun e => tableGet r.1 e.key)))
    else
      ({ table := r.1, cache := s.cache }, .error (.quorum (rep.2.length + 1)))

inductive ApiErr where
  | validation (msg : String)
  | replicationFailed (successfulTotal : Nat)
deriving DecidableEq, Repr

/-- `BatchPutSerializer.validate_items` (`storage/serializers.py`): empty,
oversized and duplicate-key batches are rejected at the boundary, in that
order; `len(set(keys))` is the number of distinct keys. -/
def validate_items (items : List (String × String)) : Except String Unit :=
  if items.isEmpty then .error "At least one item is required"
  else if MAX_BATCH_SIZE < items.length then
    .error ("Batch size " ++ toString items.length ++ " exceeds maximum of "
      ++ toString MAX_BATCH_SIZE ++ " items")
  else if (items.map (·.1)).length != ((items.map (·.1)).dedup).length then
    .error "Duplicate keys detected in batch request"
  else .ok ()

/-- `BatchPutView.post` (`storage/views.py`): serializer validation runs
before `batch_put` is called; a `ValueError` raised by `batch_put` is
re-raised as a validation error and a quorum failure becomes a 500
response. -/
def batchPutEndpoint (s : NodeState) (items : List (String × String))
    (peers : List Peer) (isReplication : Bool) :
    NodeState × Except ApiErr (List KeyValueEntry) :=
  match validate_items items with
  | .error m => (s, .error (.validation m))
  | .ok _ =>
    match batch_put s items peers (!isReplication) with
    | (s', .ok res) => (s', .ok res)
    | (s', .error (.valueError m)) => (s', .error (.validation m))
    | (s', .error (.quorum n)) => (s', .error (.replicationFailed n))

/-! ## Write traces -/

/-- One write operation of a trace: a point put or a batch put, each with
the peer behaviour its replication call will observe. -/
inductive WOp where
  | putW (k v : String) (peers : List Peer)
  | batchW (items : List (String × String)) (peers : List Peer)

def isOkE {ε α : Type _} : Except ε α → Bool
  | .ok _ => true
  | .error _ => false

/-- Apply one write operation; the flag tells whether it succeeded. -/
def applyW (s : NodeState) : WOp → NodeState × Bool
  | .putW k v peers =>
    let r := put_value s k v peers true
    (r.1, isOkE r.2)
  | .batchW items peers =>
    let r := batch_put s items peers true
    (r.1, isOkE r.2)

/-- Run a trace of write operations. -/
def runTrace (s : NodeState) (ops : List WOp) : NodeState :=
  ops.foldl (fun s' op => (applyW s' op).1) s

/-- How many writes to key `k` one operation performs. -/
def writesTo (k : String) : WOp → Nat
  | .putW k' _ _ => if k' == k then 1 else 0
  | .batchW items _ => (items.filter (fun it => it.1 == k)).length

/-- How many writes to key `k` a trace performs. -/
def countWrites (k : String) (ops : List WOp) : Nat :=
  (ops.map (writesTo k)).sum

/-- Whether an operation succeeds; this depends only on its own inputs,
never on the store state. -/
def opOk : WOp → Bool
  | .putW _ _ peers => (replicate_put peers true).1
  | .batchW items peers =>
    items.isEmpty
      || (decide (items.length ≤ MAX_BATCH_SIZE) && (replicate_batch_put peers true).1)

/-- Well-formedness of an operation: batch items carry pairwise distinct
keys (enforced by the serializer before `batch_put` is reachable, and by
the table's unique constraint otherwise). -/
def opWF : WOp → Prop
  | .putW _ _ _ => True
  | .batchW items _ => (items.map (·.1)).Nodup

instance (op : WOp) : Decidable (opWF op) := by
  cases op with
  | putW k v peers => exact isTrue trivial
  | batchW items peers => exact inferInstanceAs (Decidable ((items.map (·.1)).Nodup))

/-! ## Concrete example inputs used by witnesses and counterexamples -/

/-- A peer that is unreachable on every attempt. -/
def downPeer (u : String) : Peer := ⟨u, [none, none, none]⟩

/-- A second unreachable peer. -/
def downFor2 : Peer := downPeer "peerB"

/-- Two configured peers, both down: quorum needs 2 of 3 nodes and only
the local node is left. -/
def twoDownPeers : List Peer := [downPeer "p1", downPeer "p2"]

/-! ## Replication lemmas -/

theorem fanOutLoop_eq (ok : Peer → Bool) (ps : List Peer) : ∀ accS accF,
    fanOutLoop ok accS accF ps
      = (accS ++ (ps.filter ok).map (·.url),
         accF ++ (ps.filter (fun p => !ok p)).map (·.url)) := by
  induction ps with
  | nil => intro accS accF; simp [fanOutLoop]
  | cons p rest ih =>
    intro accS accF
    cases h : ok p with
    | true => simp [fanOutLoop, h, ih, List.filter_cons]
    | false => simp [fanOutLoop, h, ih, List.filter_cons]

theorem replicate_with_failover_eq (op : ROp) (peers : List Peer) :
    replicate_with_failover op peers true
      = if peers.isEmpty then (true, [])
        else (decide (get_required_replicas peers.length
                ≤ ((peers.filter (tryPeer op)).map (·.url)).length + 1),
              (peers.filter (tryPeer op)).map (·.url)) := by
  simp [replicate_with_failover, fanOutLoop_eq]

theorem tryPeer_of_attempt (op : ROp) (p : Peer) (i : Nat) (hi : i < RETRY_ATTEMPTS)
    (code : Nat) (h1 : attemptOutcome p i = some code) (h2 : statusOk code = true) :
    tryPeer op p = true := by
  simp only [tryPeer, List.any_eq_true, List.mem_range]
  exact ⟨i, hi, by rw [h1]; exact h2⟩

/-- C2: with `P` configured peers, the required replica count equals
`⌊(P + 1) / 2⌋ + 1`; a replicated write reports success exactly when
`1` (the local node) plus the number of peers whose retry loop succeeded
reaches that count, and the successful peer URLs are returned in order. -/
theorem quorum_arithmetic (peers : List Peer) :
    get_required_replicas peers.length = (peers.length + 1) / 2 + 1
    ∧ ((replicate_put peers true).1 = true ↔
        get_required_replicas peers.length
          ≤ 1 + ((peers.filter (tryPeer .put)).map (·.url)).length)
    ∧ (replicate_put peers true).2 = (peers.filter (tryPeer .put)).map (·.url) := by
  have h2 : replicate_put peers true
      = (decide (get_required_replicas peers.length
          ≤ ((peers.filter (tryPeer .put)).map (·.url)).length + 1),
         (peers.filter (tryPeer .put)).map (·.url)) := by
    rw [replicate_put, replicate_with_failover_eq]
    cases hpe : peers.isEmpty with
    | false => simp [hpe]
    | true =>
      have : peers = [] := List.isEmpty_iff.mp hpe
      subst this
      simp [get_required_replicas]
  refine ⟨rfl, ?_, ?_⟩
  · rw [h2]; simp [Nat.add_comm]
  · rw [h2]

/-- C8: when replicating a point delete, a peer whose response is 404
("not found") counts as a successful replica toward the quorum decision,
exactly as a success-class response does: it appears among the successful
nodes, and the coordinator's whole outcome is the one it would have
produced had that peer answered 200. -/
theorem delete_404_counts_as_success (pre post : List Peer) (u : String)
    (atts : List (Option Nat)) (i : Nat) (hi : i < RETRY_ATTEMPTS)
    (h404 : attemptOutcome ⟨u, atts⟩ i = some 404) :
    u ∈ (replicate_delete (pre ++ ⟨u, atts⟩ :: post) true).2
    ∧ replicate_delete (pre ++ ⟨u, atts⟩ :: post) true
        = replicate_delete (pre ++ ⟨u, [some 200]⟩ :: post) true := by
  have h1 : tryPeer .delete ⟨u, atts⟩ = true :=
    tryPeer_of_attempt _ _ i hi 404 h404 (by decide)
  have h2 : tryPeer .delete ⟨u, [some 200]⟩ = true :=
    tryPeer_of_attempt _ _ 0 (by decide) 200 rfl (by decide)
  have e1 : ((pre ++ (⟨u, atts⟩ : Peer) :: post).filter (tryPeer .delete)).map (·.url)
      = (pre.filter (tryPeer .delete)).map (·.url)
        ++ u :: (post.filter (tryPeer .delete)).map (·.url) := by
    simp [List.filter_append, List.filter_cons, h1]
  have e2 : ((pre ++ (⟨u, [some 200]⟩ : Peer) :: post).filter (tryPeer .delete)).map (·.url)
      = (pre.filter (tryPeer .delete)).map (·.url)
        ++ u :: (post.filter (tryPeer .delete)).map (·.url) := by
    simp [List.filter_append, List.filter_cons, h2]
  constructor
  · rw [replicate_delete, replicate_with_failover_eq, if_neg (by simp)]
    rw [e1]
    simp
  · rw [replicate_delete, replicate_with_failover_eq,
      replicate_delete, replicate_with_failover_eq, if_neg (by simp), if_neg (by simp)]
    rw [e1, e2]
    simp [List.length_append]

/-- C8 witness. -/
theorem delete_404_counts_as_success_witness :
    "peerA" ∈ (replicate_delete ([] ++ ⟨"peerA", [some 404]⟩ :: [downFor2]) true).2
    ∧ replicate_delete ([] ++ ⟨"peerA", [some 404]⟩ :: [downFor2]) true
        = replicate_delete ([] ++ ⟨"peerA", [some 200]⟩ :: [downFor2]) true :=
  delete_404_counts_as_success [] [downFor2] "peerA" [some 404] 0 (by decide) (by decide)

/-- C10: when replicating a point put, a peer whose response is HTTP 404
counts as a successful replica toward quorum — the accepted status set
`[200, 201, 204, 404]` is shared by the put and delete paths, so "not
found" contributes to put quorum exactly as a success-class response
does. -/
theorem put_404_counts_as_success (pre post : List Peer) (u : String)
    (atts : List (Option Nat)) (i : Nat) (hi : i < RETRY_ATTEMPTS)
    (h404 : attemptOutcome ⟨u, atts⟩ i = some 404) :
    u ∈ (replicate_put (pre ++ ⟨u, atts⟩ :: post) true).2
    ∧ replicate_put (pre ++ ⟨u, atts⟩ :: post) true
        = replicate_put (pre ++ ⟨u, [some 200]⟩ :: post) true := by
  have h1 : tryPeer .put ⟨u, atts⟩ = true :=
    tryPeer_of_attempt _ _ i hi 404 h404 (by decide)
  have h2 : tryPeer .put ⟨u, [some 200]⟩ = true :=
    tryPeer_of_attempt _ _ 0 (by decide) 200 rfl (by decide)
  have e1 : ((pre ++ (⟨u, atts⟩ : Peer) :: post).filter (tryPeer .put)).map (·.url)
      = (pre.filter (tryPeer .put)).map (·.url)
        ++ u :: (post.filter (tryPeer .put)).map (·.url) := by
    simp [List.filter_append, List.filter_cons, h1]
  have e2 : ((pre ++ (⟨u, [some 200]⟩ : Peer) :: post).filter (tryPeer .put)).map (·.url)
      = (pre.filter (tryPeer .put)).map (·.url)
        ++ u :: (post.filter (tryPeer .put)).map (·.url) := by
    simp [List.filter_append, List.filter_cons, h2]
  constructor
  · rw [replicate_put, replicate_with_failover_eq, if_neg (by simp)]
    rw [e1]
    simp
  · rw [replicate_put, replicate_with_failover_eq,
      replicate_put, replicate_with_failover_eq, if_neg (by simp), if_neg (by simp)]
    rw [e1, e2]
    simp [List.length_append]

/-- C10 witness. -/
theorem put_404_counts_as_success_witness :
    "peerA" ∈ (replicate_put ([] ++ ⟨"peerA", [some 404]⟩ :: [downFor2]) true).2
    ∧ replicate_put ([] ++ ⟨"peerA", [some 404]⟩ :: [downFor2]) true
        = replicate_put ([] ++ ⟨"peerA", [some 200]⟩ :: [downFor2]) true :=
  put_404_counts_as_success [] [downFor2] "peerA" [some 404] 0 (by decide) (by decide)

/-! ## Table lemmas -/

theorem find?_map_keyfix (t : Table) (f : KeyValueEntry → KeyValueEntry)
    (hf : ∀ e, (f e).key = e.key) (k : String) :
    (t.map f).find? (fun e => e.key == k) = (t.find? (fun e => e.key == k)).map f := by
  rw [List.find?_map]
  have : ((fun e : KeyValueEntry => e.key == k) ∘ f) = (fun e => e.key == k) := by
    funext e; simp [Function.comp, hf]
  rw [this]

theorem tableGet_eq_none_iff (t : Table) (k : String) :
    tableGet t k = none ↔ ∀ e ∈ t, e.key ≠ k := by
  simp [tableGet, List.find?_eq_none]

theorem tableGet_key (t : Table) (k : String) (e : KeyValueEntry)
    (h : tableGet t k = some e) : e.key = k := by
  have := List.find?_some h
  simpa using this

theorem tableGet_mem (t : Table) (k : String) (e : KeyValueEntry)
    (h : tableGet t k = some e) : e ∈ t := List.mem_of_find?_eq_some h

theorem filter_key_length_eq_zero (t : Table) (k : String) :
    ((t.filter (fun e => e.key == k)).length = 0) ↔ tableGet t k = none := by
  simp [tableGet, List.find?_eq_none, List.length_eq_zero, List.filter_eq_nil_iff]

/-! ## localPut lemmas -/

theorem putmap_keyfix (k v : String) (e : KeyValueEntry) :
    ((if e.key == k then (⟨e.key, v, e.version + 1⟩ : KeyValueEntry) else e)).key
      = e.key := by
  by_cases hc : e.key = k
  · rw [if_pos (by simp [hc])]
  · rw [if_neg (by simp [hc])]

theorem map_keyfix_keys (t : Table) (f : KeyValueEntry → KeyValueEntry)
    (hf : ∀ e, (f e).key = e.key) : (t.map f).map (·.key) = t.map (·.key) := by
  rw [List.map_map]
  apply List.map_congr_left
  intro e _
  exact hf e

theorem localPut_of_existing (t : Table) (k v : String) (e0 : KeyValueEntry)
    (h : tableGet t k = some e0) :
    localPut t k v
      = (t.map (fun e => if e.key == k then ⟨e.key, v, e.version + 1⟩ else e),
         ⟨k, v, e0.version + 1⟩, false) := by
  have hlen : ¬ ((t.filter (fun e => e.key == k)).length = 0) := by
    rw [filter_key_length_eq_zero, h]; intro hc; cases hc
  have hne : ((t.filter (fun e => e.key == k)).length != 0) = true := by
    simpa using hlen
  have hget : tableGet (t.map (fun e =>
      if e.key == k then ⟨e.key, v, e.version + 1⟩ else e)) k
      = some ⟨k, v, e0.version + 1⟩ := by
    rw [tableGet, find?_map_keyfix _ _ (putmap_keyfix k v)]
    rw [tableGet] at h
    rw [h]
    have hk := tableGet_key t k e0 h
    rw [Option.map_some']
    rw [if_pos (by simp [hk])]
    rw [hk]
  simp only [localPut, hne, if_true]
  rw [tableGet] at hget ⊢
  rw [hget]
  rfl

theorem localPut_of_absent (t : Table) (k v : String)
    (h : tableGet t k = none) :
    localPut t k v = (t ++ [⟨k, v, 1⟩], ⟨k, v, 1⟩, true) := by
  have hlen : (t.filter (fun e => e.key == k)).length = 0 :=
    (filter_key_length_eq_zero t k).mpr h
  simp [localPut, hlen]

theorem localPut_tableGet_self (t : Table) (k v : String) :
    tableGet (localPut t k v).1 k = some ⟨k, v, newVersion (tableGet t k)⟩ := by
  cases h : tableGet t k with
  | some e0 =>
    rw [localPut_of_existing t k v e0 h]
    show tableGet (t.map fun e => if e.key == k then ⟨e.key, v, e.version + 1⟩ else e)
      k = _
    rw [tableGet, find?_map_keyfix _ _ (putmap_keyfix k v)]
    rw [tableGet] at h
    rw [h, Option.map_some']
    have hk := tableGet_key t k e0 h
    rw [if_pos (by simp [hk])]
    rw [hk]
    rfl
  | none =>
    rw [localPut_of_absent t k v h]
    show tableGet (t ++ [⟨k, v, 1⟩]) k = _
    rw [tableGet, List.find?_append]
    rw [tableGet] at h
    rw [h]
    simp [newVersion, List.find?]

theorem localPut_entry (t : Table) (k v : String) :
    (localPut t k v).2.1 = ⟨k, v, newVersion (tableGet t k)⟩ := by
  cases h : tableGet t k with
  | some e0 => rw [localPut_of_existing t k v e0 h]; simp [newVersion]
  | none => rw [localPut_of_absent t k v h]; simp [newVersion]

theorem localPut_created (t : Table) (k v : String) :
    (localPut t k v).2.2 = (tableGet t k).isNone := by
  cases h : tableGet t k with
  | some e0 => rw [localPut_of_existing t k v e0 h]; rfl
  | none => rw [localPut_of_absent t k v h]; rfl

theorem localPut_tableGet_other (t : Table) (k v k' : String) (hne : k' ≠ k) :
    tableGet (localPut t k v).1 k' = tableGet t k' := by
  cases h : tableGet t k with
  | some e0 =>
    rw [localPut_of_existing t k v e0 h]
    show tableGet (t.map fun e => if e.key == k then ⟨e.key, v, e.version + 1⟩ else e)
      k' = _
    rw [tableGet, find?_map_keyfix _ _ (putmap_keyfix k v), ← tableGet]
    cases h' : tableGet t k' with
    | some e =>
      have hk' := tableGet_key t k' e h'
      rw [Option.map_some']
      rw [if_neg (by simp [hk']; exact hne)]
    | none => rfl
  | none =>
    rw [localPut_of_absent t k v h]
    show tableGet (t ++ [⟨k, v, 1⟩]) k' = _
    rw [tableGet, List.find?_append, ← tableGet]
    have hb : ((⟨k, v, 1⟩ : KeyValueEntry).key == k') = false := by
      simp
      exact fun hc => hne hc.symm
    cases h' : tableGet t k' with
    | some e => rfl
    | none => simp [List.find?, hb]

theorem localPut_nodup (t : Table) (k v : String)
    (h : (t.map (·.key)).Nodup) : ((localPut t k v).1.map (·.key)).Nodup := by
  cases hg : tableGet t k with
  | some e0 =>
    rw [localPut_of_existing t k v e0 hg]
    show ((t.map fun e => if e.key == k
        then (⟨e.key, v, e.version + 1⟩ : KeyValueEntry) else e).map (·.key)).Nodup
    rw [map_keyfix_keys _ _ (putmap_keyfix k v)]
    exact h
  | none =>
    rw [localPut_of_absent t k v hg]
    show ((t ++ [(⟨k, v, 1⟩ : KeyValueEntry)]).map (·.key)).Nodup
    have hk : k ∉ t.map (·.key) := by
      rw [tableGet_eq_none_iff] at hg
      intro hc
      rcases List.mem_map.mp hc with ⟨e, he, hek⟩
      exact hg e he hek
    simp [List.nodup_append, h, hk]

/-! ## C1, C3, C9 -/

/-- C1: if a replicated `Put` fails to reach quorum, the quorum failure is
raised and the whole operation — including the just-applied local
mutation — is rolled back: the table is exactly what it was before, so
the key has no row if it had none, and its prior row (value and version)
if it had one. -/
theorem put_quorum_failure_rolls_back (s : NodeState) (k v : String)
    (peers : List Peer) (hq : (replicate_put peers true).1 = false) :
    (∃ msg, (put_value s k v peers true).2 = .error msg)
    ∧ (put_value s k v peers true).1.table = s.table
    ∧ tableGet (put_value s k v peers true).1.table k = tableGet s.table k := by
  have hmain : put_value s k v peers true
      = ({ table := s.table, cache := s.cache },
         .error ("Failed to replicate to quorum of nodes. Successful: "
           ++ toString ((replicate_put peers true).2.length + 1) ++ " nodes")) := by
    simp [put_value, hq]
  exact ⟨⟨_, by rw [hmain]⟩, by rw [hmain], by rw [hmain]⟩

/-- C1 witness: two configured peers, both down, local row "y" untouched
and no row materialises for "x". -/
theorem put_quorum_failure_rolls_back_witness :
    (∃ msg, (put_value ⟨[⟨"y", "0", 3⟩], fun _ => none⟩ "x" "1" twoDownPeers true).2
      = .error msg)
    ∧ (put_value ⟨[⟨"y", "0", 3⟩], fun _ => none⟩ "x" "1" twoDownPeers true).1.table
      = [⟨"y", "0", 3⟩]
    ∧ tableGet (put_value ⟨[⟨"y", "0", 3⟩], fun _ => none⟩ "x" "1"
        twoDownPeers true).1.table "x" = tableGet [⟨"y", "0", 3⟩] "x" :=
  put_quorum_failure_rolls_back ⟨[⟨"y", "0", 3⟩], fun _ => none⟩ "x" "1"
    twoDownPeers (by decide)

/-- C3 counterexample: the claim that a quorum-failed replicated delete
leaves the prior row in place is false — with the key "x" present and two
unreachable peers, `delete_value` raises the quorum failure and the row
for "x" is gone afterwards. -/
theorem delete_quorum_failure_cex :
    (∃ msg, (delete_value ⟨[⟨"x", "1", 1⟩], fun _ => none⟩ "x"
        twoDownPeers true).2 = .error msg)
    ∧ tableGet (delete_value ⟨[⟨"x", "1", 1⟩], fun _ => none⟩ "x"
        twoDownPeers true).1.table "x" = none :=
  ⟨⟨_, rfl⟩, by decide⟩

/-- C3 amended: `delete_value` runs with no enclosing transaction, so when
replication of a present key's delete fails to reach quorum the quorum
failure is raised but the local delete is NOT undone — afterwards the
store holds no row for the key. -/
theorem delete_quorum_failure_not_rolled_back (s : NodeState) (k : String)
    (peers : List Peer) (hk : (tableGet s.table k).isSome = true)
    (hq : (replicate_delete peers true).1 = false) :
    (∃ msg, (delete_value s k peers true).2 = .error msg)
    ∧ (delete_value s k peers true).1.table
        = s.table.filter (fun e => !(e.key == k))
    ∧ tableGet (delete_value s k peers true).1.table k = none := by
  have hlen : ¬ ((s.table.filter (fun e => e.key == k)).length = 0) := by
    rw [filter_key_length_eq_zero]
    intro hc
    rw [hc] at hk
    cases hk
  have hdel : (((s.table.filter (fun e => e.key == k)).length) == 0) = false := by
    simpa using hlen
  have hmain : delete_value s k peers true
      = ({ table := s.table.filter (fun e => !(e.key == k)), cache := s.cache },
         .error ("Failed to replicate delete to quorum of nodes. Successful: "
           ++ toString ((replicate_delete peers true).2.length + 1) ++ " nodes")) := by
    simp [delete_value, hdel, hq]
  refine ⟨⟨_, by rw [hmain]⟩, by rw [hmain], ?_⟩
  rw [hmain]
  show tableGet (s.table.filter (fun e => !(e.key == k))) k = none
  rw [tableGet_eq_none_iff]
  intro e he
  have := (List.mem_filter.mp he).2
  simpa using this

/-- C3 amended witness. -/
theorem delete_quorum_failure_not_rolled_back_witness :
    (∃ msg, (delete_value ⟨[⟨"z", "9", 2⟩], fun _ => none⟩ "z"
        twoDownPeers true).2 = .error msg)
    ∧ (delete_value ⟨[⟨"z", "9", 2⟩], fun _ => none⟩ "z" twoDownPeers true).1.table
        = ([⟨"z", "9", 2⟩] : Table).filter (fun e => !(e.key == "z"))
    ∧ tableGet (delete_value ⟨[⟨"z", "9", 2⟩], fun _ => none⟩ "z"
        twoDownPeers true).1.table "z" = none :=
  delete_quorum_failure_not_rolled_back ⟨[⟨"z", "9", 2⟩], fun _ => none⟩ "z"
    twoDownPeers (by decide) (by decide)

/-- C9: after a successful replicated `Put(k, v)` the operation commits
the row `⟨k, v, incremented version⟩`, and the next `Read(k)` returns
exactly that row — whatever stale entry for `k` the cache held before,
because the put invalidated the cached entry and the read falls through
to the table. -/
theorem read_after_put_returns_new (s : NodeState) (k v : String)
    (peers : List Peer) (hq : (replicate_put peers true).1 = true) :
    (put_value s k v peers true).2
        = .ok (⟨k, v, newVersion (tableGet s.table k)⟩, (tableGet s.table k).isNone)
    ∧ (read_value (put_value s k v peers true).1 k).2
        = some ⟨k, v, newVersion (tableGet s.table k)⟩ := by
  have hmain : put_value s k v peers true
      = ({ table := (localPut s.table k v).1, cache := cacheDelete s.cache k },
         .ok ((localPut s.table k v).2.1, (localPut s.table k v).2.2)) := by
    simp [put_value, hq]
  constructor
  · rw [hmain, localPut_entry, localPut_created]
  · rw [hmain]
    show (read_value (NodeState.mk (localPut s.table k v).1
        (cacheDelete s.cache k)) k).2
      = some (⟨k, v, newVersion (tableGet s.table k)⟩ : KeyValueEntry)
    have hc : cacheDelete s.cache k k = none := by simp [cacheDelete]
    simp only [read_value, hc, localPut_tableGet_self]

/-- C9 witness: the cache holds a stale row for "x" (value "stale",
version 7), the table holds `⟨"x", "old", 1⟩`; after the put, the read
returns `⟨"x", "new", 2⟩`. -/
theorem read_after_put_returns_new_witness :
    (put_value ⟨[⟨"x", "old", 1⟩], fun k' => if k' == "x" then some ⟨"x", "stale", 7⟩
        else none⟩ "x" "new" [] true).2
      = .ok (⟨"x", "new", newVersion (tableGet [⟨"x", "old", 1⟩] "x")⟩,
             (tableGet [⟨"x", "old", 1⟩] "x").isNone)
    ∧ (read_value (put_value ⟨[⟨"x", "old", 1⟩], fun k' => if k' == "x"
          then some ⟨"x", "stale", 7⟩ else none⟩ "x" "new" [] true).1 "x").2
      = some ⟨"x", "new", newVersion (tableGet [⟨"x", "old", 1⟩] "x")⟩ :=
  read_after_put_returns_new ⟨[⟨"x", "old", 1⟩], fun k' => if k' == "x"
    then some ⟨"x", "stale", 7⟩ else none⟩ "x" "new" [] (by decide)

/-- C4 is refuted by the code: on the table {a, b, c} a page of size 1
over the range ["a", "c"] is sorted and in range, but its `next_cursor`
is "b" — the key of the first row beyond the page, not the last key "a"
of the page — and resuming with that cursor yields only {c}: the
concatenated scan ["a", "c"] skips key "b". -/
theorem read_range_cursor_skips_key :
    read_range [⟨"a", "1", 1⟩, ⟨"b", "2", 1⟩, ⟨"c", "3", 1⟩] "a" "c" (some 1) none
      = ([⟨"a", "1", 1⟩], some "b", true)
    ∧ read_range [⟨"a", "1", 1⟩, ⟨"b", "2", 1⟩, ⟨"c", "3", 1⟩] "a" "c" (some 1)
        (some "b")
      = ([⟨"c", "3", 1⟩], none, false)
    ∧ some "b" ≠ some "a"
    ∧ "b" ∉ ([⟨"a", "1", 1⟩] ++ [⟨"c", "3", 1⟩] : Table).map (·.key) := by
  refine ⟨by decide, by decide, by decide, by decide⟩

/-! ## C7 -/

/-- C7: the batch-put boundary rejects an input with two items of the same
key before performing any mutation (the serializer runs before
`batch_put`), and rejects an input of more than `MAX_BATCH_SIZE` items
with the size-specific message; in both cases the returned state is the
input state — the store is untouched. -/
theorem batch_boundary_rejects (s : NodeState) (items : List (String × String))
    (peers : List Peer) (isRepl : Bool) :
    (¬ (items.map (·.1)).Nodup →
      (batchPutEndpoint s items peers isRepl).1 = s
      ∧ ∃ m, (batchPutEndpoint s items peers isRepl).2 = .error (.validation m))
    ∧ (MAX_BATCH_SIZE < items.length →
      batchPutEndpoint s items peers isRepl
        = (s, .error (.validation ("Batch size " ++ toString items.length
            ++ " exceeds maximum of " ++ toString MAX_BATCH_SIZE ++ " items")))) := by
  have hvalsize : MAX_BATCH_SIZE < items.length →
      validate_items items = .error ("Batch size " ++ toString items.length
        ++ " exceeds maximum of " ++ toString MAX_BATCH_SIZE ++ " items") := by
    intro hsz
    have hne : items.isEmpty = false := by
      cases items with
      | nil => simp [MAX_BATCH_SIZE] at hsz
      | cons a t => rfl
    simp [validate_items, hne, hsz]
  constructor
  · intro hdup
    have hne : items.isEmpty = false := by
      cases items with
      | nil => exact absurd List.nodup_nil hdup
      | cons a t => rfl
    by_cases hsz : MAX_BATCH_SIZE < items.length
    · rw [show batchPutEndpoint s items peers isRepl
          = (s, .error (.validation ("Batch size " ++ toString items.length
              ++ " exceeds maximum of " ++ toString MAX_BATCH_SIZE ++ " items")))
          from by simp only [batchPutEndpoint, hvalsize hsz]]
      exact ⟨rfl, _, rfl⟩
    · have hlen : (items.map (·.1)).dedup.length ≠ (items.map (·.1)).length := by
        intro heq
        have hself : (items.map (·.1)).dedup = items.map (·.1) :=
          (List.dedup_sublist _).eq_of_length heq
        exact hdup (hself ▸ List.nodup_dedup _)
      have hbne : (((items.map (·.1)).length) != ((items.map (·.1)).dedup).length)
          = true := by
        rw [bne_iff_ne]
        intro hc
        exact hlen hc.symm
      have hval : validate_items items
          = .error "Duplicate keys detected in batch request" := by
        rw [validate_items]
        rw [if_neg (by simp [hne]), if_neg hsz, if_pos hbne]
      rw [show batchPutEndpoint s items peers isRepl
          = (s, .error (.validation "Duplicate keys detected in batch request"))
          from by simp only [batchPutEndpoint, hval]]
      exact ⟨rfl, _, rfl⟩
  · intro hsz
    simp only [batchPutEndpoint, hvalsize hsz]

/-- C7 witness: a duplicate-keyed pair is rejected with a validation error
and an untouched store, and a 10001-item batch is rejected with the
size-specific message and an untouched store. -/
theorem batch_boundary_rejects_witness :
    ((batchPutEndpoint emptyState [("a", "1"), ("a", "2")] [] false).1 = emptyState
      ∧ ∃ m, (batchPutEndpoint emptyState [("a", "1"), ("a", "2")] [] false).2
          = .error (.validation m))
    ∧ batchPutEndpoint emptyState (List.replicate 10001 ("k", "v")) [] false
        = (emptyState, .error (.validation ("Batch size "
            ++ toString (List.replicate 10001 ("k", "v")).length
            ++ " exceeds maximum of " ++ toString MAX_BATCH_SIZE ++ " items"))) :=
  ⟨(batch_boundary_rejects emptyState [("a", "1"), ("a", "2")] [] false).1
      (by decide),
   (batch_boundary_rejects emptyState (List.replicate 10001 ("k", "v")) [] false).2
      (by rw [List.length_replicate]; decide)⟩

/-! ## Dict and chunk lemmas -/

theorem dictGet_key (d : List KeyValueEntry) (k : String) (e : KeyValueEntry)
    (h : dictGet d k = some e) : e.key = k := by
  have := List.find?_some h
  simpa using this

theorem dictGet_cons (a : KeyValueEntry) (d : List KeyValueEntry) (k : String) :
    dictGet (a :: d) k = if a.key == k then some a else dictGet d k := by
  by_cases h : (a.key == k) = true
  · rw [dictGet, List.find?_cons_of_pos d h, if_pos h]
  · rw [dictGet, List.find?_cons_of_neg d h, if_neg h]
    rfl

theorem dictSet_cons (a : KeyValueEntry) (d : List KeyValueEntry) (j : String)
    (e' : KeyValueEntry) :
    dictSet (a :: d) j e' = (if a.key == j then e' else a) :: dictSet d j e' := rfl

theorem dictGet_dictSet_ne (d : List KeyValueEntry) (j k : String)
    (e' : KeyValueEntry) (he' : e'.key = j) (hne : k ≠ j) :
    dictGet (dictSet d j e') k = dictGet d k := by
  induction d with
  | nil => rfl
  | cons a rest ih =>
    by_cases ha : a.key = j
    · have hmap : dictSet (a :: rest) j e' = e' :: dictSet rest j e' := by
        rw [dictSet_cons, if_pos (show (a.key == j) = true by simp [ha])]
      rw [hmap, dictGet_cons, dictGet_cons]
      have hne_e : ¬ ((e'.key == k) = true) := by
        intro hc
        exact hne ((beq_iff_eq.mp hc).symm.trans he')
      have hne_a : ¬ ((a.key == k) = true) := by
        intro hc
        exact hne ((beq_iff_eq.mp hc).symm.trans ha)
      rw [if_neg hne_e, if_neg hne_a, ih]
    · have hmap : dictSet (a :: rest) j e' = a :: dictSet rest j e' := by
        rw [dictSet_cons, if_neg (show ¬ ((a.key == j) = true) from
          fun hc => ha (beq_iff_eq.mp hc))]
      rw [hmap, dictGet_cons, dictGet_cons]
      by_cases hak : (a.key == k) = true
      · rw [if_pos hak, if_pos hak]
      · rw [if_neg hak, if_neg hak, ih]

theorem dictGet_dictSet_self (d : List KeyValueEntry) (j : String)
    (e' : KeyValueEntry) (he' : e'.key = j) :
    dictGet (dictSet d j e') j = (dictGet d j).map (fun _ => e') := by
  induction d with
  | nil => rfl
  | cons a rest ih =>
    by_cases ha : a.key = j
    · have hmap : dictSet (a :: rest) j e' = e' :: dictSet rest j e' := by
        rw [dictSet_cons, if_pos (show (a.key == j) = true by simp [ha])]
      rw [hmap, dictGet_cons, dictGet_cons]
      rw [if_pos (show (e'.key == j) = true by simp [he']),
        if_pos (show (a.key == j) = true by simp [ha])]
      rfl
    · have hnab : ¬ ((a.key == j) = true) := fun hc => ha (beq_iff_eq.mp hc)
      have hmap : dictSet (a :: rest) j e' = a :: dictSet rest j e' := by
        rw [dictSet_cons, if_neg hnab]
      rw [hmap, dictGet_cons, dictGet_cons, if_neg hnab, if_neg hnab, ih]

theorem dictGet_dictSet_isNone (d : List KeyValueEntry) (j k : String)
    (e' : KeyValueEntry) (he' : e'.key = j) :
    (dictGet (dictSet d j e') k).isNone = (dictGet d k).isNone := by
  by_cases h : k = j
  · subst h
    rw [dictGet_dictSet_self d k e' he']
    cases dictGet d k <;> rfl
  · rw [dictGet_dictSet_ne d j k e' he' h]

theorem dictGet_dictSet_isSome (d : List KeyValueEntry) (j k : String)
    (e' : KeyValueEntry) (he' : e'.key = j) :
    (dictGet (dictSet d j e') k).isSome = (dictGet d k).isSome := by
  by_cases h : k = j
  · subst h
    rw [dictGet_dictSet_self d k e' he']
    cases dictGet d k <;> rfl
  · rw [dictGet_dictSet_ne d j k e' he' h]

theorem chunkLoop_create_update (chunk : List (String × String)) :
    ∀ (e cr : List KeyValueEntry) (up : List String),
    (chunkLoop e cr up chunk).to_create
      = cr ++ (chunk.filter (fun it => (dictGet e it.1).isNone)).map
          (fun it => (⟨it.1, it.2, 1⟩ : KeyValueEntry))
    ∧ (chunkLoop e cr up chunk).to_update
      = up ++ (chunk.filter (fun it => (dictGet e it.1).isSome)).map (·.1) := by
  induction chunk with
  | nil => intro e cr up; simp [chunkLoop]
  | cons it rest ih =>
    intro e cr up
    cases hg : dictGet e it.1 with
    | some e0 =>
      have he0 : e0.key = it.1 := dictGet_key e it.1 e0 hg
      have hkey : (⟨e0.key, it.2, e0.version + 1⟩ : KeyValueEntry).key = it.1 := he0
      have hfN : rest.filter (fun it' =>
            (dictGet (dictSet e it.1 ⟨e0.key, it.2, e0.version + 1⟩) it'.1).isNone)
          = rest.filter (fun it' => (dictGet e it'.1).isNone) :=
        List.filter_congr (fun x _ => by
          rw [dictGet_dictSet_isNone e it.1 x.1 _ hkey])
      have hfS : rest.filter (fun it' =>
            (dictGet (dictSet e it.1 ⟨e0.key, it.2, e0.version + 1⟩) it'.1).isSome)
          = rest.filter (fun it' => (dictGet e it'.1).isSome) :=
        List.filter_congr (fun x _ => by
          rw [dictGet_dictSet_isSome e it.1 x.1 _ hkey])
      have hstep := ih (dictSet e it.1 ⟨e0.key, it.2, e0.version + 1⟩) cr (up ++ [it.1])
      constructor
      · simp only [chunkLoop, hg, hstep.1, hfN, List.filter_cons, hg, Option.isNone_some,
          Bool.false_eq_true, if_false]
      · simp only [chunkLoop, hg, hstep.2, hfS, List.filter_cons, hg, Option.isSome_some,
          if_true, List.map_cons, List.append_assoc, List.cons_append, List.nil_append]
    | none =>
      have hstep := ih e (cr ++ [(⟨it.1, it.2, 1⟩ : KeyValueEntry)]) up
      constructor
      · simp only [chunkLoop, hg, hstep.1, List.filter_cons, hg, Option.isNone_none,
          if_true, List.map_cons, List.append_assoc, List.cons_append, List.nil_append]
      · simp only [chunkLoop, hg, hstep.2, List.filter_cons, hg, Option.isSome_none,
          Bool.false_eq_true, if_false]

theorem chunkLoop_existing_final (chunk : List (String × String)) :
    ∀ (e cr : List KeyValueEntry) (up : List String),
    (chunk.map (·.1)).Nodup →
    ∀ k, dictGet (chunkLoop e cr up chunk).existing k
      = match chunk.find? (fun it => it.1 == k) with
        | some it => (dictGet e k).map
            (fun e0 => ⟨e0.key, it.2, e0.version + 1⟩)
        | none => dictGet e k := by
  induction chunk with
  | nil => intro e cr up _ k; simp [chunkLoop, List.find?]
  | cons it rest ih =>
    intro e cr up hnd k
    have hnd' : (rest.map (·.1)).Nodup := (List.nodup_cons.mp hnd).2
    have hnotin : it.1 ∉ rest.map (·.1) := (List.nodup_cons.mp hnd).1
    by_cases hik : it.1 = k
    · subst hik
      have hfind : List.find? (fun it' => it'.1 == it.1) (it :: rest) = some it := by
        simp [List.find?]
      have hrest : rest.find? (fun it' => it'.1 == it.1) = none := by
        rw [List.find?_eq_none]
        intro x hx hc
        exact hnotin (List.mem_map.mpr ⟨x, hx, by simpa using hc⟩)
      rw [hfind]
      cases hg : dictGet e it.1 with
      | some e0 =>
        have he0 : e0.key = it.1 := dictGet_key e it.1 e0 hg
        have hkey : (⟨e0.key, it.2, e0.version + 1⟩ : KeyValueEntry).key = it.1 := he0
        simp only [chunkLoop, hg]
        rw [ih _ cr (up ++ [it.1]) hnd' it.1, hrest]
        rw [dictGet_dictSet_self e it.1 _ hkey, hg]
        rfl
      | none =>
        simp only [chunkLoop, hg]
        rw [ih e _ up hnd' it.1, hrest, hg]
        rfl
    · have hfind : List.find? (fun it' => it'.1 == k) (it :: rest)
          = rest.find? (fun it' => it'.1 == k) := by
        have : (it.1 == k) = false := by simp [hik]
        simp [List.find?, this]
      rw [hfind]
      cases hg : dictGet e it.1 with
      | some e0 =>
        have he0 : e0.key = it.1 := dictGet_key e it.1 e0 hg
        have hkey : (⟨e0.key, it.2, e0.version + 1⟩ : KeyValueEntry).key = it.1 := he0
        simp only [chunkLoop, hg]
        rw [ih _ cr (up ++ [it.1]) hnd' k]
        have hset : dictGet (dictSet e it.1 ⟨e0.key, it.2, e0.version + 1⟩) k
            = dictGet e k := dictGet_dictSet_ne e it.1 k _ hkey (fun hc => hik hc.symm)
        cases hf : rest.find? (fun it' => it'.1 == k) with
        | some it' => rw [hset]
        | none => rw [hset]
      | none =>
        simp only [chunkLoop, hg]
        rw [ih e _ up hnd' k]

theorem tableGet_cons (a : KeyValueEntry) (t : Table) (k : String) :
    tableGet (a :: t) k = if a.key == k then some a else tableGet t k :=
  dictGet_cons a t k

theorem existing0_cons_keep (a : KeyValueEntry) (rest : Table)
    (chunk : List (String × String)) (h : chunk.any (fun it => it.1 == a.key) = true) :
    existing0 (a :: rest) chunk = a :: existing0 rest chunk := by
  simp only [existing0, List.filter_cons, h, if_true]

theorem existing0_cons_drop (a : KeyValueEntry) (rest : Table)
    (chunk : List (String × String)) (h : chunk.any (fun it => it.1 == a.key) = false) :
    existing0 (a :: rest) chunk = existing0 rest chunk := by
  simp only [existing0, List.filter_cons, h, Bool.false_eq_true, if_false]

theorem dictGet_existing0 (t : Table) (chunk : List (String × String)) (k : String) :
    dictGet (existing0 t chunk) k
      = if chunk.any (fun it => it.1 == k) then tableGet t k else none := by
  induction t with
  | nil =>
    cases h : chunk.any (fun it => it.1 == k) <;>
      simp [existing0, dictGet, tableGet, h]
  | cons a rest ih =>
    by_cases hak : a.key = k
    · have hbk : (a.key == k) = true := by simp [hak]
      cases hany : chunk.any (fun it => it.1 == k) with
      | true =>
        have hkeep : chunk.any (fun it => it.1 == a.key) = true := by
          rw [hak]; exact hany
        rw [existing0_cons_keep a rest chunk hkeep, dictGet_cons, if_pos hbk]
        simp [tableGet_cons, hbk, hany]
      | false =>
        have hdrop : chunk.any (fun it => it.1 == a.key) = false := by
          rw [hak]; exact hany
        rw [existing0_cons_drop a rest chunk hdrop, ih, hany]
        rfl
    · have hbk : ¬ ((a.key == k) = true) := fun hc => hak (beq_iff_eq.mp hc)
      have hta : tableGet (a :: rest) k = tableGet rest k := by
        rw [tableGet_cons, if_neg hbk]
      cases hkeep : chunk.any (fun it => it.1 == a.key) with
      | true =>
        rw [existing0_cons_keep a rest chunk hkeep, dictGet_cons, if_neg hbk, ih, hta]
      | false =>
        rw [existing0_cons_drop a rest chunk hkeep, ih, hta]

/-! ## Per-chunk commit lemmas -/

theorem contains_iff_mem_str (l : List String) (a : String) :
    l.contains a = true ↔ a ∈ l := by simp

theorem find?_filter_key (l : List (String × String)) (q : (String × String) → Bool)
    (k : String) (hl : (l.map (·.1)).Nodup) :
    (l.filter q).find? (fun x => x.1 == k)
      = match l.find? (fun x => x.1 == k) with
        | some it => if q it then some it else none
        | none => none := by
  induction l with
  | nil => rfl
  | cons a rest ih =>
    rw [List.map_cons] at hl
    have hnd := List.nodup_cons.mp hl
    by_cases hak : (a.1 == k) = true
    · have hrest : (rest.filter q).find? (fun x => x.1 == k) = none := by
        rw [List.find?_eq_none]
        intro x hx hc
        have hxr : x ∈ rest := (List.mem_filter.mp hx).1
        have hxm : x.1 ∈ rest.map (·.1) := List.mem_map.mpr ⟨x, hxr, rfl⟩
        rw [beq_iff_eq.mp hc, ← beq_iff_eq.mp hak] at hxm
        exact hnd.1 hxm
      rw [@List.find?_cons_of_pos _ (fun x => x.1 == k) a rest hak]
      cases hq : q a with
      | true =>
        rw [List.filter_cons_of_pos hq,
          @List.find?_cons_of_pos _ (fun x => x.1 == k) a (rest.filter q) hak]
        simp [hq]
      | false =>
        rw [List.filter_cons_of_neg (by rw [hq]; intro hc; cases hc), hrest]
        simp [hq]
    · rw [@List.find?_cons_of_neg _ (fun x => x.1 == k) a rest hak]
      cases hq : q a with
      | true =>
        rw [List.filter_cons_of_pos hq,
          @List.find?_cons_of_neg _ (fun x => x.1 == k) a (rest.filter q) hak,
          ih hnd.2]
      | false =>
        rw [List.filter_cons_of_neg (by rw [hq]; intro hc; cases hc), ih hnd.2]

/-- The key-preserving shape of the `bulk_update` rewrite applied to one
table row. -/
theorem applyChunk_rowfix (st : ChunkState) (e : KeyValueEntry) :
    ((if st.to_update.contains e.key then
        match dictGet st.existing e.key with
        | some e' => e'
        | none => e
      else e)).key = e.key := by
  by_cases hcont : (st.to_update.contains e.key) = true
  · rw [if_pos hcont]
    cases hde : dictGet st.existing e.key with
    | some e' => exact dictGet_key _ _ _ hde
    | none => rfl
  · rw [if_neg hcont]

theorem chunk_to_create (t : Table) (c : List (String × String)) :
    (chunkLoop (existing0 t c) [] [] c).to_create
      = (c.filter (fun it => (tableGet t it.1).isNone)).map
          (fun it => (⟨it.1, it.2, 1⟩ : KeyValueEntry)) := by
  rw [(chunkLoop_create_update c (existing0 t c) [] []).1, List.nil_append]
  apply congrArg
  apply List.filter_congr
  intro x hx
  rw [dictGet_existing0, if_pos (List.any_eq_true.mpr ⟨x, hx, by simp⟩)]

theorem chunk_to_update (t : Table) (c : List (String × String)) :
    (chunkLoop (existing0 t c) [] [] c).to_update
      = (c.filter (fun it => (tableGet t it.1).isSome)).map (·.1) := by
  rw [(chunkLoop_create_update c (existing0 t c) [] []).2, List.nil_append]
  apply congrArg
  apply List.filter_congr
  intro x hx
  rw [dictGet_existing0, if_pos (List.any_eq_true.mpr ⟨x, hx, by simp⟩)]

theorem chunk_dict_found (t : Table) (c : List (String × String)) (k : String)
    (it : String × String) (e0 : KeyValueEntry) (hc : (c.map (·.1)).Nodup)
    (hfind : c.find? (fun x => x.1 == k) = some it)
    (hg : tableGet t k = some e0) :
    dictGet (chunkLoop (existing0 t c) [] [] c).existing k
      = some ⟨k, it.2, e0.version + 1⟩ := by
  have hmem : it ∈ c := List.mem_of_find?_eq_some hfind
  have hit1 : it.1 = k := by simpa using List.find?_some hfind
  have he0k : e0.key = k := tableGet_key t k e0 hg
  rw [chunkLoop_existing_final c (existing0 t c) [] [] hc k, hfind, dictGet_existing0,
    if_pos (List.any_eq_true.mpr ⟨it, hmem, by simp [hit1]⟩), hg]
  show some (⟨e0.key, it.2, e0.version + 1⟩ : KeyValueEntry)
    = some ⟨k, it.2, e0.version + 1⟩
  rw [he0k]

theorem chunk_tableGet_found (t : Table) (c : List (String × String)) (k : String)
    (it : String × String) (hc : (c.map (·.1)).Nodup)
    (hfind : c.find? (fun x => x.1 == k) = some it) :
    tableGet (applyChunk t (chunkLoop (existing0 t c) [] [] c)) k
      = some ⟨it.1, it.2, newVersion (tableGet t it.1)⟩ := by
  have hit1 : it.1 = k := by simpa using List.find?_some hfind
  have hmem : it ∈ c := List.mem_of_find?_eq_some hfind
  rw [show applyChunk t (chunkLoop (existing0 t c) [] [] c)
      = t.map (fun e =>
          if (chunkLoop (existing0 t c) [] [] c).to_update.contains e.key then
            match dictGet (chunkLoop (existing0 t c) [] [] c).existing e.key with
            | some e' => e'
            | none => e
          else e)
        ++ (chunkLoop (existing0 t c) [] [] c).to_create from rfl]
  rw [tableGet, List.find?_append,
    find?_map_keyfix _ _ (applyChunk_rowfix (chunkLoop (existing0 t c) [] [] c))]
  cases hg : tableGet t k with
  | some e0 =>
    have he0k : e0.key = k := tableGet_key t k e0 hg
    have hcont : (chunkLoop (existing0 t c) [] [] c).to_update.contains k
        = true := by
      rw [chunk_to_update t c, contains_iff_mem_str]
      refine List.mem_map.mpr ⟨it, ?_, hit1⟩
      refine List.mem_filter.mpr ⟨hmem, ?_⟩
      rw [hit1, hg]
      rfl
    have hdk := chunk_dict_found t c k it e0 hc hfind hg
    have hgf : List.find? (fun e => e.key == k) t = some e0 := hg
    have hmape : Option.map (fun e =>
          if (chunkLoop (existing0 t c) [] [] c).to_update.contains e.key then
            match dictGet (chunkLoop (existing0 t c) [] [] c).existing e.key with
            | some e' => e'
            | none => e
          else e) (some e0)
        = some (⟨k, it.2, e0.version + 1⟩ : KeyValueEntry) := by
      rw [Option.map_some']
      show some (if (chunkLoop (existing0 t c) [] [] c).to_update.contains e0.key
          then
            match dictGet (chunkLoop (existing0 t c) [] [] c).existing e0.key with
            | some e' => e'
            | none => e0
          else e0)
        = some (⟨k, it.2, e0.version + 1⟩ : KeyValueEntry)
      rw [he0k, if_pos hcont, hdk]
    rw [hgf, hmape]
    have hgit : tableGet t it.1 = some e0 := by rw [hit1]; exact hg
    rw [hgit]
    show some (⟨k, it.2, e0.version + 1⟩ : KeyValueEntry)
      = some ⟨it.1, it.2, newVersion (some e0)⟩
    rw [hit1]
    rfl
  | none =>
    have hgf : List.find? (fun e => e.key == k) t = none := hg
    rw [hgf, Option.map_none', Option.none_or]
    rw [chunk_to_create t c, List.find?_map]
    rw [show ((fun e : KeyValueEntry => e.key == k)
        ∘ (fun it : String × String => (⟨it.1, it.2, 1⟩ : KeyValueEntry)))
        = fun it : String × String => it.1 == k from rfl]
    rw [find?_filter_key c _ k hc, hfind]
    have hgit : tableGet t it.1 = none := by rw [hit1]; exact hg
    show Option.map (fun it' : String × String =>
        (⟨it'.1, it'.2, 1⟩ : KeyValueEntry))
        (if (tableGet t it.1).isNone = true then some it else none)
      = some ⟨it.1, it.2, newVersion (tableGet t it.1)⟩
    rw [hgit]
    rfl

theorem chunk_tableGet_not_found (t : Table) (c : List (String × String)) (k : String)
    (hc : (c.map (·.1)).Nodup)
    (hfind : c.find? (fun x => x.1 == k) = none) :
    tableGet (applyChunk t (chunkLoop (existing0 t c) [] [] c)) k = tableGet t k := by
  have hnotin : ∀ x ∈ c, x.1 ≠ k := by
    intro x hx hc'
    have := List.find?_eq_none.mp hfind x hx
    simp [hc'] at this
  have hcontk : (chunkLoop (existing0 t c) [] [] c).to_update.contains k
      = false := by
    rw [chunk_to_update t c]
    cases hcc : ((c.filter (fun it => (tableGet t it.1).isSome)).map
        (·.1)).contains k with
    | false => rfl
    | true =>
      exfalso
      have := (contains_iff_mem_str _ _).mp hcc
      rcases List.mem_map.mp this with ⟨x, hx, hxk⟩
      exact hnotin x (List.mem_filter.mp hx).1 hxk
  rw [show applyChunk t (chunkLoop (existing0 t c) [] [] c)
      = t.map (fun e =>
          if (chunkLoop (existing0 t c) [] [] c).to_update.contains e.key then
            match dictGet (chunkLoop (existing0 t c) [] [] c).existing e.key with
            | some e' => e'
            | none => e
          else e)
        ++ (chunkLoop (existing0 t c) [] [] c).to_create from rfl]
  rw [tableGet, List.find?_append,
    find?_map_keyfix _ _ (applyChunk_rowfix (chunkLoop (existing0 t c) [] [] c))]
  cases hg : tableGet t k with
  | some e =>
    have hek : e.key = k := tableGet_key t k e hg
    have hgf : List.find? (fun e' => e'.key == k) t = some e := hg
    have hmape : Option.map (fun e' =>
          if (chunkLoop (existing0 t c) [] [] c).to_update.contains e'.key then
            match dictGet (chunkLoop (existing0 t c) [] [] c).existing e'.key with
            | some e'' => e''
            | none => e'
          else e') (some e)
        = some e := by
      rw [Option.map_some']
      show some (if (chunkLoop (existing0 t c) [] [] c).to_update.contains e.key
          then
            match dictGet (chunkLoop (existing0 t c) [] [] c).existing e.key with
            | some e'' => e''
            | none => e
          else e)
        = some e
      rw [show ((chunkLoop (existing0 t c) [] [] c).to_update.contains e.key)
          = false from by rw [hek]; exact hcontk]
      rfl
    rw [hgf, hmape]
    rfl
  | none =>
    have hgf : List.find? (fun e' => e'.key == k) t = none := hg
    rw [hgf, Option.map_none', Option.none_or]
    rw [chunk_to_create t c, List.find?_map]
    rw [show ((fun e : KeyValueEntry => e.key == k)
        ∘ (fun it : String × String => (⟨it.1, it.2, 1⟩ : KeyValueEntry)))
        = fun it : String × String => it.1 == k from rfl]
    rw [find?_filter_key c _ k hc, hfind]
    rfl

theorem find?_key_of_mem_nodup (l : List (String × String)) (it : String × String)
    (hl : (l.map (·.1)).Nodup) (hm : it ∈ l) :
    l.find? (fun x => x.1 == it.1) = some it := by
  induction l with
  | nil => cases hm
  | cons a rest ih =>
    rw [List.map_cons] at hl
    have hnd := List.nodup_cons.mp hl
    rcases List.mem_cons.mp hm with h | h
    · subst h
      exact @List.find?_cons_of_pos _ (fun x => x.1 == it.1) it rest (by simp)
    · have hne : ¬ ((a.1 == it.1) = true) := by
        intro hcb
        have hmm : it.1 ∈ rest.map (·.1) := List.mem_map.mpr ⟨it, h, rfl⟩
        rw [← beq_iff_eq.mp hcb] at hmm
        exact hnd.1 hmm
      rw [@List.find?_cons_of_neg _ (fun x => x.1 == it.1) a rest hne]
      exact ih hnd.2 h

theorem filterMap_eq_map_of_some (l : List (String × String))
    (f : (String × String) → Option KeyValueEntry)
    (g : (String × String) → KeyValueEntry)
    (h : ∀ x ∈ l, f x = some (g x)) : l.filterMap f = l.map g := by
  induction l with
  | nil => rfl
  | cons a rest ih =>
    simp [List.filterMap, h a (by simp), ih (fun x hx => h x (by simp [hx]))]

theorem chunk_nodup (t : Table) (c : List (String × String))
    (ht : (t.map (·.key)).Nodup) (hc : (c.map (·.1)).Nodup) :
    ((applyChunk t (chunkLoop (existing0 t c) [] [] c)).map (·.key)).Nodup := by
  rw [show applyChunk t (chunkLoop (existing0 t c) [] [] c)
      = t.map (fun e =>
          if (chunkLoop (existing0 t c) [] [] c).to_update.contains e.key then
            match dictGet (chunkLoop (existing0 t c) [] [] c).existing e.key with
            | some e' => e'
            | none => e
          else e)
        ++ (chunkLoop (existing0 t c) [] [] c).to_create from rfl]
  rw [List.map_append,
    map_keyfix_keys _ _ (applyChunk_rowfix (chunkLoop (existing0 t c) [] [] c)),
    chunk_to_create t c, List.map_map]
  rw [show ((fun e : KeyValueEntry => e.key)
      ∘ (fun it : String × String => (⟨it.1, it.2, 1⟩ : KeyValueEntry)))
      = fun it : String × String => it.1 from rfl]
  rw [List.nodup_append]
  refine ⟨ht, ?_, ?_⟩
  · exact List.Nodup.sublist ((List.filter_sublist c).map (·.1)) hc
  · intro a ha hb
    rcases List.mem_map.mp hb with ⟨itc, hitc, hitck⟩
    have hq := (List.mem_filter.mp hitc).2
    rw [hitck] at hq
    have hnone : tableGet t a = none := by
      cases hx : tableGet t a with
      | none => rfl
      | some e => rw [hx] at hq; cases hq
    rw [tableGet_eq_none_iff] at hnone
    rcases List.mem_map.mp ha with ⟨e, he, hek⟩
    exact hnone e he hek

theorem chunk_results (t : Table) (c : List (String × String))
    (hc : (c.map (·.1)).Nodup) :
    (chunkLoop (existing0 t c) [] [] c).to_create
      ++ (chunkLoop (existing0 t c) [] [] c).to_update.filterMap
          (fun k => dictGet (chunkLoop (existing0 t c) [] [] c).existing k)
      = (c.filter (fun it => (tableGet t it.1).isNone)).map
          (fun it => (⟨it.1, it.2, 1⟩ : KeyValueEntry))
        ++ (c.filter (fun it => (tableGet t it.1).isSome)).map
          (fun it => (⟨it.1, it.2, newVersion (tableGet t it.1)⟩ : KeyValueEntry)) := by
  rw [chunk_to_create t c, chunk_to_update t c]
  congr 1
  rw [List.filterMap_map]
  apply filterMap_eq_map_of_some
  intro x hx
  have hxc : x ∈ c := (List.mem_filter.mp hx).1
  have hxs := (List.mem_filter.mp hx).2
  rcases Option.isSome_iff_exists.mp hxs with ⟨e0, hg⟩
  have hfind : c.find? (fun y => y.1 == x.1) = some x :=
    find?_key_of_mem_nodup c x hc hxc
  show dictGet (chunkLoop (existing0 t c) [] [] c).existing x.1
    = some ⟨x.1, x.2, newVersion (tableGet t x.1)⟩
  rw [chunk_dict_found t c x.1 x e0 hc hfind hg, hg]
  rfl

/-! ## Chunk slicing -/

theorem chunksOf_cons (l : List (String × String)) (h : l ≠ []) :
    chunksOf l = l.take BATCH_CHUNK_SIZE :: chunksOf (l.drop BATCH_CHUNK_SIZE) := by
  have hlen : 1 ≤ l.length := by
    cases l with
    | nil => exact absurd rfl h
    | cons a rest => simp
  have hcount : (l.length + BATCH_CHUNK_SIZE - 1) / BATCH_CHUNK_SIZE
      = ((l.drop BATCH_CHUNK_SIZE).length + BATCH_CHUNK_SIZE - 1) / BATCH_CHUNK_SIZE
        + 1 := by
    rw [List.length_drop]
    show (l.length + 1000 - 1) / 1000 = (l.length - 1000 + 1000 - 1) / 1000 + 1
    omega
  show (chunkStarts l.length).map (fun cs => (l.drop cs).take BATCH_CHUNK_SIZE)
    = l.take BATCH_CHUNK_SIZE
      :: (chunkStarts (l.drop BATCH_CHUNK_SIZE).length).map
        (fun cs => ((l.drop BATCH_CHUNK_SIZE).drop cs).take BATCH_CHUNK_SIZE)
  rw [chunkStarts, chunkStarts, hcount, List.range_succ_eq_map]
  rw [List.map_cons, List.map_cons]
  congr 1
  rw [List.map_map, List.map_map, List.map_map]
  apply List.map_congr_left
  intro i _
  show (l.drop ((i + 1) * BATCH_CHUNK_SIZE)).take BATCH_CHUNK_SIZE
    = ((l.drop BATCH_CHUNK_SIZE).drop (i * BATCH_CHUNK_SIZE)).take BATCH_CHUNK_SIZE
  rw [List.drop_drop, Nat.succ_mul,
    Nat.add_comm (i * BATCH_CHUNK_SIZE) BATCH_CHUNK_SIZE]

theorem chunksOf_flatten (l : List (String × String)) : (chunksOf l).flatten = l := by
  by_cases h : l = []
  · subst h; rfl
  · rw [chunksOf_cons l h, List.flatten_cons,
      chunksOf_flatten (l.drop BATCH_CHUNK_SIZE), List.take_append_drop]
termination_by l.length
decreasing_by
  have hne : l.length ≠ 0 := by simpa using h
  simp only [List.length_drop, BATCH_CHUNK_SIZE]
  omega

theorem nodup_of_flatten_nodup (chunks : List (List (String × String)))
    (h : ((chunks.flatten).map (·.1)).Nodup) :
    ∀ c ∈ chunks, (c.map (·.1)).Nodup := by
  intro c hcmem
  exact List.Nodup.sublist ((List.sublist_flatten_of_mem hcmem).map (·.1)) h

/-! ## The whole chunked commit loop -/

theorem runChunks_table_fst (t : Table) (c : List (String × String))
    (rest : List (List (String × String))) :
    (runChunks t (c :: rest)).1
      = (runChunks (applyChunk t (chunkLoop (existing0 t c) [] [] c)) rest).1 := rfl

theorem runChunks_nodup (chunks : List (List (String × String))) : ∀ t : Table,
    (t.map (·.key)).Nodup → (∀ c ∈ chunks, (c.map (·.1)).Nodup) →
    ((runChunks t chunks).1.map (·.key)).Nodup := by
  induction chunks with
  | nil => intro t ht _; exact ht
  | cons c rest ih =>
    intro t ht hall
    rw [runChunks_table_fst]
    exact ih _ (chunk_nodup t c ht (hall c (by simp)))
      (fun c' hc' => hall c' (by simp [hc']))

theorem runChunks_not_found (chunks : List (List (String × String))) :
    ∀ (t : Table) (k : String),
    (∀ c ∈ chunks, (c.map (·.1)).Nodup) →
    chunks.flatten.find? (fun it => it.1 == k) = none →
    tableGet (runChunks t chunks).1 k = tableGet t k := by
  induction chunks with
  | nil => intro t k _ _; rfl
  | cons c rest ih =>
    intro t k hall hfind
    rw [List.flatten_cons, List.find?_append] at hfind
    have h1 : c.find? (fun it => it.1 == k) = none := by
      cases hx : c.find? (fun it => it.1 == k) with
      | none => rfl
      | some a =>
        rw [hx, show (some a).or (rest.flatten.find? (fun it => it.1 == k))
            = some a from rfl] at hfind
        cases hfind
    rw [h1, Option.none_or] at hfind
    rw [runChunks_table_fst]
    rw [ih _ k (fun c' hc' => hall c' (by simp [hc'])) hfind]
    exact chunk_tableGet_not_found t c k (hall c (by simp)) h1

theorem runChunks_found (chunks : List (List (String × String))) :
    ∀ (t : Table) (k : String) (it : String × String),
    (t.map (·.key)).Nodup → ((chunks.flatten).map (·.1)).Nodup →
    chunks.flatten.find? (fun x => x.1 == k) = some it →
    tableGet (runChunks t chunks).1 k
      = some ⟨it.1, it.2, newVersion (tableGet t it.1)⟩ := by
  induction chunks with
  | nil => intro t k it _ _ hfind; cases hfind
  | cons c rest ih =>
    intro t k it ht hnd hfind
    rw [List.flatten_cons, List.map_append] at hnd
    have hsplit := List.nodup_append.mp hnd
    rw [List.flatten_cons, List.find?_append] at hfind
    rw [runChunks_table_fst]
    cases hc : c.find? (fun x => x.1 == k) with
    | some it0 =>
      have hit : it0 = it := by
        rw [hc, show (some it0).or (rest.flatten.find? (fun x => x.1 == k))
            = some it0 from rfl] at hfind
        cases hfind
        rfl
      subst hit
      have hit1 : it0.1 = k := by simpa using List.find?_some hc
      have hmemc : it0.1 ∈ c.map (·.1) :=
        List.mem_map.mpr ⟨it0, List.mem_of_find?_eq_some hc, rfl⟩
      have hrest : rest.flatten.find? (fun x => x.1 == k) = none := by
        rw [List.find?_eq_none]
        intro x hx hxk
        have hxm : x.1 ∈ (rest.flatten).map (·.1) := List.mem_map.mpr ⟨x, hx, rfl⟩
        rw [beq_iff_eq.mp hxk, ← hit1] at hxm
        exact hsplit.2.2 hmemc hxm
      rw [runChunks_not_found rest _ k
        (nodup_of_flatten_nodup rest hsplit.2.1) hrest]
      exact chunk_tableGet_found t c k it0 hsplit.1 hc
    | none =>
      rw [hc, Option.none_or] at hfind
      have hit1 : it.1 = k := by simpa using List.find?_some hfind
      rw [ih _ k it (chunk_nodup t c ht hsplit.1) hsplit.2.1 hfind]
      rw [show tableGet (applyChunk t (chunkLoop (existing0 t c) [] [] c)) it.1
          = tableGet t it.1 from by
        rw [hit1]; exact chunk_tableGet_not_found t c k hsplit.1 hc]

theorem runChunks_results (chunks : List (List (String × String))) : ∀ t : Table,
    ((chunks.flatten).map (·.1)).Nodup →
    (runChunks t chunks).2
      = (chunks.map (fun c =>
          (c.filter (fun it => (tableGet t it.1).isNone)).map
            (fun it => (⟨it.1, it.2, 1⟩ : KeyValueEntry))
          ++ (c.filter (fun it => (tableGet t it.1).isSome)).map
            (fun it => (⟨it.1, it.2, newVersion (tableGet t it.1)⟩
              : KeyValueEntry)))).flatten := by
  induction chunks with
  | nil => intro t _; rfl
  | cons c rest ih =>
    intro t hnd
    rw [List.flatten_cons, List.map_append] at hnd
    have hsplit := List.nodup_append.mp hnd
    rw [List.map_cons, List.flatten_cons]
    show (chunkLoop (existing0 t c) [] [] c).to_create
        ++ (chunkLoop (existing0 t c) [] [] c).to_update.filterMap
            (fun k => dictGet (chunkLoop (existing0 t c) [] [] c).existing k)
        ++ (runChunks (applyChunk t (chunkLoop (existing0 t c) [] [] c)) rest).2
      = _
    rw [chunk_results t c hsplit.1]
    congr 1
    rw [ih _ hsplit.2.1]
    apply congrArg
    apply List.map_congr_left
    intro c' hc'
    have hket : ∀ x ∈ c',
        tableGet (applyChunk t (chunkLoop (existing0 t c) [] [] c)) x.1
          = tableGet t x.1 := by
      intro x hx
      have hxm : x.1 ∈ (rest.flatten).map (·.1) :=
        List.mem_map.mpr ⟨x, List.mem_flatten.mpr ⟨c', hc', hx⟩, rfl⟩
      have hnotc : c.find? (fun y => y.1 == x.1) = none := by
        rw [List.find?_eq_none]
        intro y hy hyk
        have hym : y.1 ∈ c.map (·.1) := List.mem_map.mpr ⟨y, hy, rfl⟩
        rw [beq_iff_eq.mp hyk] at hym
        exact hsplit.2.2 hym hxm
      exact chunk_tableGet_not_found t c x.1 hsplit.1 hnotc
    have hfN : c'.filter (fun it =>
          (tableGet (applyChunk t (chunkLoop (existing0 t c) [] [] c)) it.1).isNone)
        = c'.filter (fun it => (tableGet t it.1).isNone) :=
      List.filter_congr (fun x hx => by rw [hket x hx])
    have hfS : c'.filter (fun it =>
          (tableGet (applyChunk t (chunkLoop (existing0 t c) [] [] c)) it.1).isSome)
        = c'.filter (fun it => (tableGet t it.1).isSome) :=
      List.filter_congr (fun x hx => by rw [hket x hx])
    rw [hfN, hfS]
    apply congrArg
    apply List.map_congr_left
    intro x hx
    rw [hket x ((List.mem_filter.mp hx).1)]

/-! ## batch_put and write traces -/

theorem batch_put_ok (s : NodeState) (items : List (String × String))
    (peers : List Peer) (hne : items.isEmpty = false)
    (hsz : ¬ (MAX_BATCH_SIZE < items.length))
    (hrep : (replicate_batch_put peers true).1 = true) :
    batch_put s items peers true
      = ({ table := (runChunks s.table (chunksOf items)).1,
           cache := fun k => if items.any (fun it => it.1 == k) then none
             else s.cache k },
         .ok ((runChunks s.table (chunksOf items)).2.filterMap
           (fun e => tableGet (runChunks s.table (chunksOf items)).1 e.key))) := by
  simp only [batch_put, hne, Bool.false_eq_true, if_false, hsz, hrep, if_true]

theorem applyW_put_table (s : NodeState) (k v : String) (peers : List Peer)
    (hok : opOk (.putW k v peers) = true) :
    (applyW s (.putW k v peers)).1.table = (localPut s.table k v).1
    ∧ (applyW s (.putW k v peers)).2 = true := by
  have hrep : (replicate_put peers true).1 = true := hok
  constructor <;> simp [applyW, put_value, hrep, isOkE]

theorem applyW_batch_table (s : NodeState) (items : List (String × String))
    (peers : List Peer) (hok : opOk (.batchW items peers) = true) :
    (applyW s (.batchW items peers)).1.table
      = (runChunks s.table (chunksOf items)).1
    ∧ (applyW s (.batchW items peers)).2 = true := by
  cases hne : items.isEmpty with
  | true =>
    have hnil : items = [] := List.isEmpty_iff.mp hne
    subst hnil
    exact ⟨rfl, rfl⟩
  | false =>
    have hok' := hok
    rw [show opOk (.batchW items peers)
        = (items.isEmpty || (decide (items.length ≤ MAX_BATCH_SIZE)
            && (replicate_batch_put peers true).1)) from rfl,
      hne, Bool.false_or, Bool.and_eq_true] at hok'
    have hsz : ¬ (MAX_BATCH_SIZE < items.length) := by
      have := of_decide_eq_true hok'.1
      omega
    have hb := batch_put_ok s items peers hne hsz hok'.2
    constructor
    · show (batch_put s items peers true).1.table = _
      rw [hb]
    · show isOkE (batch_put s items peers true).2 = true
      rw [hb]
      rfl

/-- The version the store currently holds for a key, zero when absent. -/
def verOf (t : Table) (k : String) : Nat := ((tableGet t k).map (·.version)).getD 0

theorem newVersion_eq (t : Table) (k : String) :
    newVersion (tableGet t k) = verOf t k + 1 := by
  cases h : tableGet t k <;> simp [newVersion, verOf, h]

theorem countWrites_cons (k : String) (op : WOp) (tr : List WOp) :
    countWrites k (op :: tr) = writesTo k op + countWrites k tr := by
  simp [countWrites]

theorem writesTo_batch_eq (items : List (String × String)) (k : String)
    (hn : (items.map (·.1)).Nodup) :
    (items.filter (fun it => it.1 == k)).length
      = match items.find? (fun it => it.1 == k) with
        | some _ => 1
        | none => 0 := by
  induction items with
  | nil => rfl
  | cons a rest ih =>
    rw [List.map_cons] at hn
    have hnd := List.nodup_cons.mp hn
    by_cases hak : (a.1 == k) = true
    · have hfc : (a :: rest).filter (fun it => it.1 == k)
          = a :: rest.filter (fun it => it.1 == k) := List.filter_cons_of_pos hak
      rw [@List.find?_cons_of_pos _ (fun it => it.1 == k) a rest hak, hfc]
      have hrest : rest.filter (fun it => it.1 == k) = [] := by
        rw [List.filter_eq_nil_iff]
        intro x hx hc
        have hxm : x.1 ∈ rest.map (·.1) := List.mem_map.mpr ⟨x, hx, rfl⟩
        rw [beq_iff_eq.mp hc, ← beq_iff_eq.mp hak] at hxm
        exact hnd.1 hxm
      rw [hrest]
      rfl
    · have hfc : (a :: rest).filter (fun it => it.1 == k)
          = rest.filter (fun it => it.1 == k) := List.filter_cons_of_neg hak
      rw [@List.find?_cons_of_neg _ (fun it => it.1 == k) a rest hak, hfc, ih hnd.2]

/-- Effect of one trace operation on the row of one key: either the
operation does not write the key and the row is untouched, or it writes it
exactly once and the stored version becomes the previous version plus
one.  The key column stays duplicate-free either way. -/
theorem applyW_tableGet (s : NodeState) (op : WOp) (k : String)
    (ht : (s.table.map (·.key)).Nodup) (hok : opOk op = true) (hwf : opWF op) :
    ((writesTo k op = 0 ∧ tableGet (applyW s op).1.table k = tableGet s.table k)
      ∨ (writesTo k op = 1 ∧ (tableGet (applyW s op).1.table k).map (·.version)
          = some (verOf s.table k + 1)))
    ∧ ((applyW s op).1.table.map (·.key)).Nodup := by
  cases op with
  | putW k' v peers =>
    have htab := (applyW_put_table s k' v peers hok).1
    constructor
    · by_cases hkk : k' = k
      · subst hkk
        right
        constructor
        · simp [writesTo]
        · rw [htab, localPut_tableGet_self, Option.map_some', newVersion_eq]
      · left
        constructor
        · simp [writesTo]
          exact hkk
        · rw [htab]
          exact localPut_tableGet_other s.table k' v k (fun hc => hkk hc.symm)
    · rw [htab]
      exact localPut_nodup s.table k' v ht
  | batchW items peers =>
    have hn : (items.map (·.1)).Nodup := hwf
    have hflat : (((chunksOf items).flatten).map (·.1)).Nodup := by
      rw [chunksOf_flatten]
      exact hn
    have htab := (applyW_batch_table s items peers hok).1
    constructor
    · cases hfind : items.find? (fun it => it.1 == k) with
      | some it =>
        right
        have hit1 : it.1 = k := by simpa using List.find?_some hfind
        constructor
        · show (items.filter (fun it => it.1 == k)).length = 1
          rw [writesTo_batch_eq items k hn, hfind]
        · have hfind' : (chunksOf items).flatten.find? (fun x => x.1 == k)
              = some it := by
            rw [chunksOf_flatten]
            exact hfind
          rw [htab, runChunks_found (chunksOf items) s.table k it ht hflat hfind',
            Option.map_some']
          rw [show tableGet s.table it.1 = tableGet s.table k from by rw [hit1]]
          rw [newVersion_eq]
      | none =>
        left
        constructor
        · show (items.filter (fun it => it.1 == k)).length = 0
          rw [writesTo_batch_eq items k hn, hfind]
        · have hfind' : (chunksOf items).flatten.find? (fun x => x.1 == k)
              = none := by
            rw [chunksOf_flatten]
            exact hfind
          rw [htab]
          exact runChunks_not_found (chunksOf items) s.table k
            (nodup_of_flatten_nodup _ hflat) hfind'
    · rw [htab]
      exact runChunks_nodup (chunksOf items) s.table ht
        (nodup_of_flatten_nodup _ hflat)

theorem runTrace_version_aux (tr : List WOp) : ∀ s : NodeState,
    (s.table.map (·.key)).Nodup → (∀ op ∈ tr, opOk op = true) →
    (∀ op ∈ tr, opWF op) → ∀ k : String,
    (countWrites k tr = 0 →
      tableGet (runTrace s tr).table k = tableGet s.table k)
    ∧ (1 ≤ countWrites k tr →
      (tableGet (runTrace s tr).table k).map (·.version)
        = some (verOf s.table k + countWrites k tr)) := by
  induction tr with
  | nil =>
    intro s _ _ _ k
    exact ⟨fun _ => rfl, fun h => absurd h (by simp [countWrites])⟩
  | cons op tr ih =>
    intro s ht hoks hwfs k
    have hstep := applyW_tableGet s op k ht (hoks op (by simp)) (hwfs op (by simp))
    have ihs := ih (applyW s op).1 hstep.2 (fun o ho => hoks o (by simp [ho]))
      (fun o ho => hwfs o (by simp [ho])) k
    have hrun : runTrace s (op :: tr) = runTrace (applyW s op).1 tr := rfl
    constructor
    · intro h0
      rw [countWrites_cons] at h0
      have hw0 : writesTo k op = 0 := by omega
      have hc0 : countWrites k tr = 0 := by omega
      rcases hstep.1 with ⟨_, heq⟩ | ⟨h1, _⟩
      · rw [hrun, ihs.1 hc0, heq]
      · rw [h1] at hw0
        cases hw0
    · intro h1c
      rw [hrun]
      rcases hstep.1 with ⟨hw0, heq⟩ | ⟨hw1, hver⟩
      · have hcnt : countWrites k (op :: tr) = countWrites k tr := by
          rw [countWrites_cons, hw0, Nat.zero_add]
        have h1' : 1 ≤ countWrites k tr := by
          rw [hcnt] at h1c
          exact h1c
        rw [ihs.2 h1', hcnt]
        have hvv : verOf (applyW s op).1.table k = verOf s.table k := by
          rw [verOf, verOf, heq]
        rw [hvv]
      · by_cases hz : countWrites k tr = 0
        · rw [ihs.1 hz, hver]
          have hcnt : countWrites k (op :: tr) = 1 := by
            rw [countWrites_cons, hw1, hz]
          rw [hcnt]
        · have h1' : 1 ≤ countWrites k tr := Nat.one_le_iff_ne_zero.mpr hz
          rw [ihs.2 h1']
          have hvv : verOf (applyW s op).1.table k = verOf s.table k + 1 := by
            rw [verOf, hver]
            rfl
          rw [hvv, countWrites_cons, hw1, Nat.add_assoc]

/-- C5: starting from an empty store, for every key `k` and every trace of
write operations (point puts and batch puts in any order, each one
succeeding, batches with pairwise-distinct keys), the stored version of
`k` equals the number of writes the trace performed on `k`: the first
write creates the row at version 1 and every further write increments it
by exactly one; a key never written has no row. -/
theorem version_equals_write_count (tr : List WOp) (k : String)
    (hok : ∀ op ∈ tr, opOk op = true) (hwf : ∀ op ∈ tr, opWF op) :
    (tableGet (runTrace emptyState tr).table k).map (·.version)
      = if countWrites k tr = 0 then none else some (countWrites k tr) := by
  have h := runTrace_version_aux tr emptyState (by simp [emptyState]) hok hwf k
  by_cases hz : countWrites k tr = 0
  · rw [if_pos hz, h.1 hz]
    rfl
  · rw [if_neg hz, h.2 (Nat.one_le_iff_ne_zero.mpr hz)]
    rw [show verOf emptyState.table k = 0 from rfl, Nat.zero_add]

/-- A concrete trace: put "x", then a batch writing "x" and "y", then put
"x" again — three writes to "x". -/
def c5_trace : List WOp :=
  [.putW "x" "1" [], .batchW [("x", "2"), ("y", "3")] [], .putW "x" "4" []]

/-- C5 witness: after the three successful writes to "x" of `c5_trace`,
the stored version of "x" is 3. -/
theorem version_equals_write_count_witness :
    countWrites "x" c5_trace = 3
    ∧ (tableGet (runTrace emptyState c5_trace).table "x").map (·.version)
        = some 3 := by
  constructor
  · decide
  · rw [version_equals_write_count c5_trace "x" (by decide) (by decide)]
    decide

/-! ## C6 -/

/-- The pre-state of the batch-ordering scenario: key "b" already exists. -/
def c6_state : NodeState := ⟨[⟨"b", "old", 1⟩], fun _ => none⟩

/-- C6 is refuted: with key "b" already present, the fully successful
batch [("b", "nb"), ("a", "na")] returns the created entry for "a" first
and the updated entry for "b" second — the first returned key differs
from the first input key, so the result is not in input order. -/
theorem batch_results_order_cex :
    (batch_put c6_state [("b", "nb"), ("a", "na")] [] true).2
      = .ok [⟨"a", "na", 1⟩, ⟨"b", "nb", 2⟩]
    ∧ (⟨"a", "na", 1⟩ : KeyValueEntry).key ≠ ("b", "nb").1 := by
  constructor
  · rfl
  · decide

theorem refresh_map_key (T1 : Table) : ∀ l : List KeyValueEntry,
    (∀ e ∈ l, ∃ e', tableGet T1 e.key = some e') →
    ((l.filterMap (fun e => tableGet T1 e.key)).map (·.key)) = l.map (·.key)
  | [], _ => rfl
  | a :: rest, h => by
    rcases h a (by simp) with ⟨e', he'⟩
    have hk : e'.key = a.key := tableGet_key _ _ _ he'
    simp [List.filterMap, he', hk,
      refresh_map_key T1 rest (fun x hx => h x (by simp [hx]))]

theorem refresh_mem (T1 : Table) (l : List KeyValueEntry) (e' : KeyValueEntry)
    (he' : e' ∈ l.filterMap (fun e => tableGet T1 e.key)) :
    tableGet T1 e'.key = some e' := by
  rcases List.mem_filterMap.mp he' with ⟨a, _, hfa⟩
  rw [tableGet_key T1 a.key e' hfa, hfa]

/-- C6 amended: a fully successful `BatchPut` over pairwise-distinct keys
returns exactly one refreshed row per input item — the returned keys are a
permutation of the input keys, and every returned entry is the row the
final table holds for its key — but ordered, within each chunk, with the
newly created keys first and the updated keys second (each group in input
order), rather than in input order. -/
theorem batch_results_order (s : NodeState) (items : List (String × String))
    (peers : List Peer) (hn : (items.map (·.1)).Nodup)
    (ht : (s.table.map (·.key)).Nodup)
    (hsz : items.length ≤ MAX_BATCH_SIZE)
    (hrep : (replicate_batch_put peers true).1 = true) :
    ∃ res, (batch_put s items peers true).2 = .ok res
      ∧ res.map (·.key)
          = ((chunksOf items).map (fun c =>
              (c.filter (fun it => (tableGet s.table it.1).isNone)).map (·.1)
              ++ (c.filter (fun it => (tableGet s.table it.1).isSome)).map
                  (·.1))).flatten
      ∧ (res.map (·.key)).Perm (items.map (·.1))
      ∧ ∀ e ∈ res,
          tableGet (batch_put s items peers true).1.table e.key = some e := by
  cases hne : items.isEmpty with
  | true =>
    have hnil : items = [] := List.isEmpty_iff.mp hne
    subst hnil
    exact ⟨[], rfl, rfl, List.Perm.refl [], fun e he => absurd he (by simp)⟩
  | false =>
    have hsz' : ¬ (MAX_BATCH_SIZE < items.length) := by omega
    have hb := batch_put_ok s items peers hne hsz' hrep
    have hflat : (((chunksOf items).flatten).map (·.1)).Nodup := by
      rw [chunksOf_flatten]
      exact hn
    have hres := runChunks_results (chunksOf items) s.table hflat
    have hhas : ∀ e ∈ (runChunks s.table (chunksOf items)).2,
        ∃ e', tableGet (runChunks s.table (chunksOf items)).1 e.key = some e' := by
      intro e he
      rw [hres] at he
      rcases List.mem_flatten.mp he with ⟨gl, hgl, hegl⟩
      rcases List.mem_map.mp hgl with ⟨c, hcmem, hgc⟩
      rw [← hgc] at hegl
      have hekey : ∃ it ∈ c, e.key = it.1 := by
        rcases List.mem_append.mp hegl with h | h
        · rcases List.mem_map.mp h with ⟨it, hit, hmk⟩
          exact ⟨it, (List.mem_filter.mp hit).1, by rw [← hmk]⟩
        · rcases List.mem_map.mp h with ⟨it, hit, hmk⟩
          exact ⟨it, (List.mem_filter.mp hit).1, by rw [← hmk]⟩
      rcases hekey with ⟨it, hitc, hek⟩
      have hfs : ((chunksOf items).flatten.find? (fun x => x.1 == e.key)).isSome
          = true := by
        rw [List.find?_isSome]
        exact ⟨it, List.mem_flatten.mpr ⟨c, hcmem, hitc⟩, by simp [hek]⟩
      rcases Option.isSome_iff_exists.mp hfs with ⟨it', hfind⟩
      exact ⟨_, runChunks_found (chunksOf items) s.table e.key it' ht hflat hfind⟩
    have hkeys : (((runChunks s.table (chunksOf items)).2.filterMap
          (fun e => tableGet (runChunks s.table (chunksOf items)).1 e.key)).map
            (·.key))
        = ((chunksOf items).map (fun c =>
            (c.filter (fun it => (tableGet s.table it.1).isNone)).map (·.1)
            ++ (c.filter (fun it => (tableGet s.table it.1).isSome)).map
                (·.1))).flatten := by
      rw [refresh_map_key _ _ hhas, hres, List.map_flatten, List.map_map]
      apply congrArg
      apply List.map_congr_left
      intro c _
      simp [List.map_append, List.map_map]
      rfl
    have hchunkperm : ∀ c : List (String × String),
        ((c.filter (fun it => (tableGet s.table it.1).isNone)).map (·.1)
          ++ (c.filter (fun it => (tableGet s.table it.1).isSome)).map
              (·.1)).Perm (c.map (·.1)) := by
      intro c
      have hconv : c.filter (fun it => (tableGet s.table it.1).isSome)
          = c.filter (fun it => !((tableGet s.table it.1).isNone)) :=
        List.filter_congr (fun x _ => by cases tableGet s.table x.1 <;> rfl)
      rw [← List.map_append, hconv]
      exact (List.filter_append_perm _ c).map (·.1)
    have hflp : ∀ cs : List (List (String × String)),
        ((cs.map (fun c =>
            (c.filter (fun it => (tableGet s.table it.1).isNone)).map (·.1)
            ++ (c.filter (fun it => (tableGet s.table it.1).isSome)).map
                (·.1))).flatten).Perm ((cs.flatten).map (·.1)) := by
      intro cs
      induction cs with
      | nil => exact List.Perm.refl []
      | cons c restcs ihc =>
        rw [List.map_cons, List.flatten_cons, List.flatten_cons, List.map_append]
        exact (hchunkperm c).append ihc
    refine ⟨_, by rw [hb], hkeys, ?_, ?_⟩
    · rw [hkeys]
      have h2 := hflp (chunksOf items)
      rw [chunksOf_flatten items] at h2
      exact h2
    · intro e he
      rw [show (batch_put s items peers true).1.table
          = (runChunks s.table (chunksOf items)).1 from by rw [hb]]
      exact refresh_mem _ _ e he

/-- C6 amended witness: the concrete scenario of the counterexample run
through the amended theorem. -/
theorem batch_results_order_witness :
    ∃ res, (batch_put c6_state [("b", "nb"), ("a", "na")] [] true).2 = .ok res
      ∧ res.map (·.key)
          = ((chunksOf [("b", "nb"), ("a", "na")]).map (fun c =>
              (c.filter (fun it => (tableGet c6_state.table it.1).isNone)).map
                (·.1)
              ++ (c.filter (fun it =>
                  (tableGet c6_state.table it.1).isSome)).map (·.1))).flatten
      ∧ (res.map (·.key)).Perm ([("b", "nb"), ("a", "na")].map (·.1))
      ∧ ∀ e ∈ res, tableGet (batch_put c6_state [("b", "nb"), ("a", "na")] []
          true).1.table e.key = some e :=
  batch_results_order c6_state [("b", "nb"), ("a", "na")] [] (by decide)
    (by decide) (by decide) (by decide)

end KV
